import Mathlib

/-
Verification development for the tflint ruleset's module_circular_dependency
rule.  The definitions below are a shallow embedding of
rules/module_circular_dependency.go: HCL source ranges, dependency edges,
the reference extractor over expression trees, the graph builder, the
two-pass cycle detector and the reporting loop of Check.

Go maps are modelled as association lists / lookup functions; iterations
over map keys that the Go code sorts before traversal are modelled by
sorting a key list.  The recursive DFS (findCycle) carries a fuel
parameter; the Go recursion always terminates because the visited set
grows, and detectCircularDependencies instantiates the fuel with a bound
that is large enough (one more than the number of distinct module names).
-/

namespace Tflint

/-- hcl.Pos: Line, Column, Byte. -/
structure Pos where
  line : Nat
  column : Nat
  byte : Nat
deriving DecidableEq, Repr

/-- hcl.Range: Filename, Start, End. -/
structure Range where
  filename : String
  start : Pos
  stop : Pos
deriving DecidableEq, Repr

/-- The zero value hcl.Range{}. -/
def Range.zero : Range := ⟨"", ⟨0, 0, 0⟩, ⟨0, 0, 0⟩⟩

/-- Dependency: From, To, Range. -/
structure Dependency where
  From : String
  To : String
  Range : Range
deriving DecidableEq, Repr

/-- CircularDependency: ModuleA, ModuleB, Range, CyclePath. -/
structure CircularDependency where
  ModuleA : String
  ModuleB : String
  Range : Range
  CyclePath : String
deriving DecidableEq, Repr

/-- Go's bytewise string comparison `s < t`, as a structurally recursive
boolean over the character lists (UTF-8 byte order coincides with
code-point order).  Lean's builtin String.lt decision procedure is
well-founded recursion, which the kernel cannot evaluate, so the
embedding carries its own executable comparison together with a proof
(strLtb_iff below) that it agrees with the standard order. -/
def charListLt : List Char → List Char → Bool
  | _, [] => false
  | [], _ :: _ => true
  | a :: as, b :: bs => if a < b then true else if b < a then false else charListLt as bs

/-- Go `a < b` on strings. -/
def strLtb (a b : String) : Bool := charListLt a.data b.data

/-- Go `a <= b` on strings (total order: not b < a). -/
def strLeb (a b : String) : Bool := !(strLtb b a)

/-- The sorting relation used for sort.Strings. -/
def strLe (a b : String) : Prop := strLeb a b = true

instance : DecidableRel strLe := fun a b => by unfold strLe; infer_instance

/-- sort.Strings: ascending lexicographic sort of a string slice. -/
def sortStrings (l : List String) : List String :=
  l.insertionSort strLe

/-- The adjacency list depMap[k] as built by the loop
`depMap[dep.From] = append(depMap[dep.From], dep.To)`:
the To fields of the dependencies whose From field is k, in input order. -/
def depMapAdj (deps : List Dependency) (k : String) : List String :=
  (deps.filter (fun d => d.From == k)).map Dependency.To

/-- The key set of depMap: every string occurring as a From field,
each key once (Go map key set; enumeration order is irrelevant because the
detector sorts the keys before use). -/
def depKeys (deps : List Dependency) : List String :=
  (deps.map Dependency.From).dedup

/-- depRangeMap[f][t]: map writes are last-wins, a missing entry reads as
the zero Range. -/
def lookupRange (deps : List Dependency) (f t : String) : Range :=
  ((deps.filter (fun d => d.From == f && d.To == t)).map Dependency.Range).getLastD Range.zero

/-- rangeToUse: the zero range unless depRangeMap[f][t] exists with a
non-empty Filename (the code checks `depRangeMap[f] != nil` and
`.Filename != ""`; a nil inner map reads as the zero Range, so the
Filename test subsumes the nil test). -/
def rangeToUse (deps : List Dependency) (f t : String) : Range :=
  let r := lookupRange deps f t
  if r.filename ≠ "" then r else Range.zero

/-- The index of the (first) lexicographically smallest element:
Go's loop `if module < cycle[minIndex] { minIndex = i }` starting at i = 1,
carrying the current best index and value. -/
def minIndexGo : Nat → Nat → String → List String → Nat
  | _, best, _, [] => best
  | i, best, bestVal, m :: rest =>
    if strLtb m bestVal then minIndexGo (i + 1) i m rest
    else minIndexGo (i + 1) best bestVal rest

/-- Rotation of the cycle so that it starts at its smallest member:
Go builds normalized[i] = cycle[(minIndex+i) % n], which is List.rotate
by the min index. -/
def rotateToMin (cycle : List String) : List String :=
  match cycle with
  | [] => []
  | c :: rest => (c :: rest).rotate (minIndexGo 1 0 c rest)

/-- The join loop `result += module + "→"`. -/
def joinCycleKey (l : List String) : String :=
  l.foldl (fun acc m => acc ++ m ++ "→") ""

/-- normalizeCycle: empty key for the empty cycle, otherwise rotate to the
smallest member and join with the separator "→". -/
def normalizeCycle (cycle : List String) : String :=
  match cycle with
  | [] => ""
  | _ :: _ => joinCycleKey (rotateToMin cycle)

/-- The path rendering loop: names joined by " → ". -/
def joinSep : List String → String
  | [] => ""
  | [m] => m
  | m :: rest => m ++ " → " ++ joinSep rest

/-- cyclePath: the joined cycle followed by " → " and the first member. -/
def cyclePathString (cycle : List String) : String :=
  joinSep cycle ++ " → " ++ cycle.headD ""

/-- `(*path)[cycleStart:]` where cycleStart is the first index holding m. -/
def dropUntil (m : String) : List String → List String
  | [] => []
  | a :: rest => if a = m then a :: rest else dropUntil m rest

/-- The body of findCycle's child loop: try each dependency in order,
returning the first cycle found; when none is found, pop the path
(`recStack[module] = false; *path = (*path)[:len(*path)-1]`).
The recursion stack is not modelled separately: an entry recStack[m] is
true exactly when m is on the path. -/
def findChildrenAux
    (f : String → List String → List String → Option (List String) × List String × List String) :
    List String → List String → List String →
      Option (List String) × List String × List String
  | [], visited, path => (none, visited, path.dropLast)
  | c :: rest, visited, path =>
    match f c visited path with
    | (some cyc, v, p) => (some cyc, v, p)
    | (none, v, p) => findChildrenAux f rest v p

/-- findCycle: DFS returning (cycle found, visited set, path buffer).
On revisiting a module on the recursion stack it returns the path suffix
from that module's first occurrence; an already visited module yields
nothing; otherwise the module is marked visited, pushed, and the children
are explored. -/
def findCycle (adj : String → List String) :
    Nat → String → List String → List String →
      Option (List String) × List String × List String
  | 0, _, visited, path => (none, visited, path)
  | fuel + 1, module, visited, path =>
    if module ∈ path then (some (dropUntil module path), visited, path)
    else if module ∈ visited then (none, visited, path)
    else findChildrenAux (fun c v p => findCycle adj fuel c v p)
      (adj module) (module :: visited) (path ++ [module])

/-- The detector's mutable state: the reportedCycles key set and the
accumulated circularDeps slice. -/
abbrev DetectState := List String × List CircularDependency

/-- Pass 1 inner loop over reverseDeps: on finding reverseDep == module,
emit one finding for the direct cycle unless its key was reported. -/
def pass1Rev (rng : String → String → Range) (module dep : String) :
    List String → DetectState → DetectState
  | [], st => st
  | r :: rest, st =>
    if r = module then
      let cycleKey := normalizeCycle [module, dep]
      if cycleKey ∈ st.1 then pass1Rev rng module dep rest st
      else pass1Rev rng module dep rest
        (cycleKey :: st.1, st.2 ++ [⟨module, dep, rng module dep, ""⟩])
    else pass1Rev rng module dep rest st

/-- Pass 1 middle loop over deps = depMap[module]. -/
def pass1Deps (adj : String → List String) (rng : String → String → Range)
    (module : String) : List String → DetectState → DetectState
  | [], st => st
  | d :: ds, st => pass1Deps adj rng module ds (pass1Rev rng module d (adj d) st)

/-- Pass 1 outer loop over the sorted module list. -/
def pass1 (adj : String → List String) (rng : String → String → Range) :
    List String → DetectState → DetectState
  | [], st => st
  | m :: ms, st => pass1 adj rng ms (pass1Deps adj rng m (adj m) st)

/-- One finding per consecutive pair of the cycle, wrapping from the last
member to the first, all carrying the rendered cycle path. -/
def emitCycleFindings (rng : String → String → Range) (cycle : List String) :
    List CircularDependency :=
  (List.range cycle.length).map (fun i =>
    let moduleA := cycle.getD i ""
    let moduleB := cycle.getD ((i + 1) % cycle.length) ""
    ⟨moduleA, moduleB, rng moduleA moduleB, cyclePathString cycle⟩)

/-- Pass 2 body for one start module: run the DFS with fresh visited and
path, and report the first cycle found unless its key was reported. -/
def pass2Step (adj : String → List String) (rng : String → String → Range)
    (fuel : Nat) (st : DetectState) (m : String) : DetectState :=
  match (findCycle adj fuel m [] []).1 with
  | none => st
  | some cycle =>
    let cycleKey := normalizeCycle cycle
    if cycleKey ∈ st.1 then st
    else (cycleKey :: st.1, st.2 ++ emitCycleFindings rng cycle)

/-- Pass 2 outer loop over the sorted module list. -/
def pass2 (adj : String → List String) (rng : String → String → Range)
    (fuel : Nat) : List String → DetectState → DetectState
  | [], st => st
  | m :: ms, st => pass2 adj rng fuel ms (pass2Step adj rng fuel st m)

/-- The detector over its derived inputs: the sorted module list, the
sorted adjacency lists, the representative range lookup and the DFS fuel. -/
def detectCore (modules : List String) (adj : String → List String)
    (rng : String → String → Range) (fuel : Nat) : List CircularDependency :=
  (pass2 adj rng fuel modules (pass1 adj rng modules ([], []))).2

/-- Enough fuel for the DFS: one more than the number of distinct module
names occurring in the edge list. -/
def fuelFor (deps : List Dependency) : Nat :=
  ((deps.map Dependency.From ++ deps.map Dependency.To).dedup).length + 1

/-- detectCircularDependencies with an explicit enumeration order of the
depMap key set (Go map iteration is order-nondeterministic; the code
sorts the enumerated keys before use). -/
def detectWithKeys (keys : List String) (deps : List Dependency) :
    List CircularDependency :=
  detectCore (sortStrings keys) (fun k => sortStrings (depMapAdj deps k))
    (rangeToUse deps) (fuelFor deps)

/-- detectCircularDependencies: the canonical key enumeration. -/
def detectCircularDependencies (deps : List Dependency) : List CircularDependency :=
  detectWithKeys (depKeys deps) deps

/-- One step of an hcl.Traversal: the root name, an attribute access, or
any other traverser kind (e.g. an index). -/
inductive Traverser where
  | root (name : String)
  | attr (name : String)
  | index
deriving DecidableEq, Repr

/-- The hclsyntax expression kinds findModuleReferences dispatches on.
Every kind outside the handled shapes is collapsed into `other`. -/
inductive Expr where
  | scopeTraversal (traversal : List Traverser)
  | template (parts : List Expr)
  | tupleCons (exprs : List Expr)
  | objectCons (items : List (Expr × Expr))
  | functionCall (name : String) (args : List Expr)
  | conditional (cond tRes fRes : Expr)
  | forE (coll : Expr) (key : Option Expr) (val : Expr) (cond : Option Expr)
  | other

mutual

/-- findModuleReferences: a traversal whose first two steps are the root
name "module" and an attribute naming a known module contributes that
module name; template parts, tuple elements, object item values, call
arguments, the two conditional results and the four for-expression
sub-expressions are searched recursively; everything else contributes
nothing. -/
def findModuleReferences (expr : Expr) (modules : List String) : List String :=
  match expr with
  | .scopeTraversal tr =>
    match tr with
    | .root name :: .attr a :: _ =>
      if name = "module" then (if a ∈ modules then [a] else []) else []
    | _ => []
  | .template parts => findRefsList parts modules
  | .tupleCons exprs => findRefsList exprs modules
  | .objectCons items => findRefsItems items modules
  | .functionCall _ args => findRefsList args modules
  | .conditional _ t f =>
    findModuleReferences t modules ++ findModuleReferences f modules
  | .forE coll key val cond =>
    findModuleReferences coll modules ++ findRefsOpt key modules ++
      findModuleReferences val modules ++ findRefsOpt cond modules
  | .other => []

/-- The extractor's loop over a list of sub-expressions. -/
def findRefsList (es : List Expr) (modules : List String) : List String :=
  match es with
  | [] => []
  | e :: rest => findModuleReferences e modules ++ findRefsList rest modules

/-- The extractor's loop over object items: only the value of each item
is searched. -/
def findRefsItems (items : List (Expr × Expr)) (modules : List String) : List String :=
  match items with
  | [] => []
  | item :: rest => findModuleReferences item.2 modules ++ findRefsItems rest modules

/-- The nil-guarded recursion into an optional sub-expression. -/
def findRefsOpt (e : Option Expr) (modules : List String) : List String :=
  match e with
  | none => []
  | some e => findModuleReferences e modules

end

/-- hclsyntax.Attribute: name, expression, source range (Attribute.Range()
covers the whole attribute). -/
structure Attribute where
  name : String
  expr : Expr
  range : Range

/-- hclsyntax.Block: type, labels, the attributes of its body (a Go map,
iterated and then sorted by start line), and the block's own range. -/
structure Block where
  type : String
  labels : List String
  attributes : List Attribute
  range : Range

/-- hcl.File: Body is an interface; the type assertion to *hclsyntax.Body
can fail, in which case the file contributes nothing. -/
structure File where
  body : Option (List Block)

/-- The file map, sorted by file name (keys of a Go map are distinct;
the code sorts the names and looks each one up). -/
def sortFiles (files : List (String × File)) : List (String × File) :=
  files.insertionSort (fun p q => strLe p.1 q.1)

/-- Blocks sorted by their range's start line (sort.Slice with a strict
less on start lines; ties cannot occur for distinct top-level blocks). -/
def sortBlocks (bs : List Block) : List Block :=
  bs.insertionSort (fun b1 b2 => b1.range.start.line ≤ b2.range.start.line)

/-- Attributes sorted by their range's start line. -/
def sortAttrs (as : List Attribute) : List Attribute :=
  as.insertionSort (fun a1 a2 => a1.range.start.line ≤ a2.range.start.line)

/-- collectModules: every first label of a "module"-typed block with at
least one label, over files sorted by name (blocks are not sorted here);
only membership in the result is ever used. -/
def collectModules (files : List (String × File)) : List String :=
  (sortFiles files).foldr (fun p acc =>
    (match p.2.body with
     | none => []
     | some blocks => blocks.filterMap (fun b =>
         if b.type = "module" ∧ b.labels ≠ [] then some (b.labels.headD "") else none))
    ++ acc) []

/-- The deterministic traversal order of buildDependencies: files sorted
by name, within a file the blocks sorted by start line, module blocks
only, each paired with its attributes sorted by start line. -/
def moduleAttrSeq (files : List (String × File)) : List (String × Attribute) :=
  (sortFiles files).foldr (fun p acc =>
    (match p.2.body with
     | none => []
     | some blocks => (sortBlocks blocks).foldr (fun b acc2 =>
         (if b.type = "module" ∧ b.labels ≠ [] then
            (sortAttrs b.attributes).map (fun a => (b.labels.headD "", a))
          else []) ++ acc2) [])
    ++ acc) []

/-- The duplicate-check key of buildDependencies:
`depKey := moduleName + "->" + dep`. -/
def depKeyStr (f t : String) : String := f ++ "->" ++ t

/-- The inner loop of buildDependencies over the references found in one
attribute: the seen-set key is the string from ++ "->" ++ to; an unseen
key appends one Dependency carrying the attribute's range. -/
def addRefs (moduleName : String) (rng : Range) :
    List String → List String × List Dependency → List String × List Dependency
  | [], st => st
  | dep :: rest, st =>
    let depKey := depKeyStr moduleName dep
    if depKey ∈ st.1 then addRefs moduleName rng rest st
    else addRefs moduleName rng rest (depKey :: st.1, st.2 ++ [⟨moduleName, dep, rng⟩])

/-- buildDependencies: thread the seen-set and the edge slice through the
deterministic traversal, extracting references from each attribute. -/
def buildDependencies (files : List (String × File)) (modules : List String) :
    List Dependency :=
  ((moduleAttrSeq files).foldl (fun st entry =>
    addRefs entry.1 entry.2.range (findModuleReferences entry.2.expr modules) st)
    ([], [])).2

/-- The message formatting in Check. -/
def renderMessage (dep : CircularDependency) : String :=
  if dep.CyclePath ≠ "" then
    "Circular dependency detected between modules: " ++ dep.ModuleA ++ " ↔ " ++
      dep.ModuleB ++ " (path: " ++ dep.CyclePath ++ ")"
  else
    "Circular dependency detected between modules: " ++ dep.ModuleA ++ " ↔ " ++ dep.ModuleB

/-- The external collaborators of Check: GetFiles (which can fail) and
EmitIssue, modelled as a deterministic oracle from the emitted message and
range to an optional delivery error. -/
structure Runner where
  getFilesResult : Except String (List (String × File))
  emitIssue : String → Range → Option String

/-- The reporting loop: emit each finding in order; a delivery error
aborts the loop and is returned unmodified.  The first component records
the EmitIssue calls that were made, in order. -/
def emitAll (emit : String → Range → Option String) :
    List CircularDependency → List String × Option String
  | [] => ([], none)
  | dep :: rest =>
    let message := renderMessage dep
    match emit message dep.Range with
    | some e => ([message], some e)
    | none =>
      let r := emitAll emit rest
      (message :: r.1, r.2)

/-- Check: collect modules, build dependencies, detect cycles, report.
The result is the list of EmitIssue calls made plus the error returned
(none on a clean run). -/
def Check (runner : Runner) : List String × Option String :=
  match runner.getFilesResult with
  | .error e => ([], some e)
  | .ok files =>
    let modules := collectModules files
    let deps := buildDependencies files modules
    let circularDeps := detectCircularDependencies deps
    emitAll runner.emitIssue circularDeps

/-- Concrete file set used by witnesses: module "a" with two attributes
referencing module "b". -/
def exampleFilesDup : List (String × File) :=
  [("main.tf", ⟨some [
    ⟨"module", ["a"],
      [⟨"x", .scopeTraversal [.root "module", .attr "b", .attr "o"],
        ⟨"main.tf", ⟨1, 3, 2⟩, ⟨1, 9, 8⟩⟩⟩,
       ⟨"y", .scopeTraversal [.root "module", .attr "b", .attr "p"],
        ⟨"main.tf", ⟨2, 3, 12⟩, ⟨2, 9, 18⟩⟩⟩], ⟨"main.tf", ⟨1, 1, 0⟩, ⟨2, 9, 18⟩⟩⟩,
    ⟨"module", ["b"], [], ⟨"main.tf", ⟨3, 1, 20⟩, ⟨3, 9, 28⟩⟩⟩]⟩)]

/-- Concrete file set exhibiting the "->" seen-key collision: module "a"
references "b->c" while module "a->b" references "c" from two distinct
attributes. -/
def exampleFilesCollide : List (String × File) :=
  [("main.tf", ⟨some [
    ⟨"module", ["a"],
      [⟨"x", .scopeTraversal [.root "module", .attr "b->c", .attr "o"],
        ⟨"main.tf", ⟨1, 3, 2⟩, ⟨1, 9, 8⟩⟩⟩], ⟨"main.tf", ⟨1, 1, 0⟩, ⟨1, 9, 8⟩⟩⟩,
    ⟨"module", ["a->b"],
      [⟨"x", .scopeTraversal [.root "module", .attr "c", .attr "o"],
        ⟨"main.tf", ⟨2, 3, 12⟩, ⟨2, 9, 18⟩⟩⟩,
       ⟨"y", .scopeTraversal [.root "module", .attr "c", .attr "o"],
        ⟨"main.tf", ⟨3, 3, 22⟩, ⟨3, 9, 28⟩⟩⟩], ⟨"main.tf", ⟨2, 1, 10⟩, ⟨3, 9, 28⟩⟩⟩,
    ⟨"module", ["b->c"], [], ⟨"main.tf", ⟨4, 1, 30⟩, ⟨4, 9, 38⟩⟩⟩,
    ⟨"module", ["c"], [], ⟨"main.tf", ⟨5, 1, 40⟩, ⟨5, 9, 48⟩⟩⟩]⟩)]

/-- A true cycle over an adjacency function: nonempty, consecutive
members are adjacent, and the last member points back to the first. -/
def IsCycleOf (adj : String → List String) (cyc : List String) : Prop :=
  cyc ≠ [] ∧ List.Chain' (fun a b => b ∈ adj a) cyc ∧
    cyc.headD "" ∈ adj (cyc.getLastD "")

/-- The edge relation of the input edge list. -/
def edgeRel (deps : List Dependency) (a b : String) : Prop :=
  ∃ d ∈ deps, d.From = a ∧ d.To = b


mutual

/-- An expression contains a recognized module traversal anywhere in its
tree (including positions the extractor does not recurse into, such as
object keys and the conditional's condition). -/
def containsModuleRef (expr : Expr) (modules : List String) : Bool :=
  match expr with
  | .scopeTraversal tr =>
    match tr with
    | .root name :: .attr a :: _ => decide (name = "module") && decide (a ∈ modules)
    | _ => false
  | .template parts => containsRefsList parts modules
  | .tupleCons exprs => containsRefsList exprs modules
  | .objectCons items => containsRefsItems items modules
  | .functionCall _ args => containsRefsList args modules
  | .conditional c t f =>
    containsModuleRef c modules || containsModuleRef t modules || containsModuleRef f modules
  | .forE coll key val cond =>
    containsModuleRef coll modules || containsRefsOpt key modules ||
      containsModuleRef val modules || containsRefsOpt cond modules
  | .other => false

def containsRefsList (es : List Expr) (modules : List String) : Bool :=
  match es with
  | [] => false
  | e :: rest => containsModuleRef e modules || containsRefsList rest modules

def containsRefsItems (items : List (Expr × Expr)) (modules : List String) : Bool :=
  match items with
  | [] => false
  | item :: rest =>
    containsModuleRef item.1 modules || containsModuleRef item.2 modules ||
      containsRefsItems rest modules

def containsRefsOpt (e : Option Expr) (modules : List String) : Bool :=
  match e with
  | none => false
  | some e => containsModuleRef e modules

end

/-! ### Helper lemmas -/


/-- A finding involves module A or module B. -/
def touchesF (A B : String) (f : CircularDependency) : Bool :=
  f.ModuleA == A || f.ModuleA == B || f.ModuleB == A || f.ModuleB == B

/-- The C1 invariant through the pairwise pass: the touching findings are
exactly one when the pair key has been reported and none otherwise, and
every touching finding carries the pair (in one order) with empty path. -/
def c1Inv (A B : String) (st : DetectState) : Prop :=
  ((st.2.filter (touchesF A B)).length =
    if normalizeCycle [A, B] ∈ st.1 then 1 else 0) ∧
  ∀ f ∈ st.2, touchesF A B f = true →
    ((f.ModuleA = A ∧ f.ModuleB = B) ∨ (f.ModuleA = B ∧ f.ModuleB = A)) ∧ f.CyclePath = ""

/-- C1 counterexample input: two mutual pairs whose canonical pair keys
collide through the arrow character inside module names. -/
def exampleDepsArrow : List Dependency :=
  [⟨"a", "b→c", ⟨"f", ⟨1, 1, 1⟩, ⟨1, 2, 2⟩⟩⟩,
   ⟨"b→c", "a", ⟨"f", ⟨2, 1, 3⟩, ⟨2, 2, 4⟩⟩⟩,
   ⟨"a→b", "c", ⟨"f", ⟨3, 1, 5⟩, ⟨3, 2, 6⟩⟩⟩,
   ⟨"c", "a→b", ⟨"f", ⟨4, 1, 7⟩, ⟨4, 2, 8⟩⟩⟩]

theorem joinCycleKey_foldl_shift (s : String) (l : List String) :
    l.foldl (fun acc m => acc ++ m ++ "→") s = s ++ l.foldl (fun acc m => acc ++ m ++ "→") "" := by
  induction l generalizing s with
  | nil => simp
  | cons m rest ih =>
    simp only [List.foldl_cons]
    rw [ih (s ++ m ++ "→"), ih ("" ++ m ++ "→")]
    simp [String.append_assoc]

theorem joinCycleKey_cons (m : String) (l : List String) :
    joinCycleKey (m :: l) = m ++ "→" ++ joinCycleKey l := by
  simp only [joinCycleKey, List.foldl_cons]
  rw [joinCycleKey_foldl_shift]
  simp [String.append_assoc]

theorem joinCycleKey_nil : joinCycleKey [] = "" := rfl

theorem arrowString_length : ("→" : String).length = 1 := rfl

theorem joinCycleKey_length (l : List String) :
    (joinCycleKey l).length = (l.map (fun m => m.length + 1)).sum := by
  induction l with
  | nil => rfl
  | cons m rest ih => simp [joinCycleKey_cons, String.length_append, ih, arrowString_length]

theorem sortStrings_singleton (a : String) : sortStrings [a] = [a] := rfl

theorem charListLt_iff (s t : List Char) : charListLt s t = true ↔ s < t := by
  induction s generalizing t with
  | nil =>
    cases t with
    | nil =>
      simp only [charListLt, Bool.false_eq_true, false_iff]
      intro h; nomatch h
    | cons b bs =>
      simp only [charListLt, true_iff]
      exact List.Lex.nil
  | cons a as ih =>
    cases t with
    | nil =>
      simp only [charListLt, Bool.false_eq_true, false_iff]
      intro h; nomatch h
    | cons b bs =>
      simp only [charListLt]
      rcases lt_trichotomy a b with h | h | h
      · rw [if_pos h]
        simp only [true_iff]
        exact List.Lex.rel h
      · subst h
        rw [if_neg (lt_irrefl a), if_neg (lt_irrefl a), ih bs]
        constructor
        · exact fun hl => List.Lex.cons hl
        · intro hl
          cases hl with
          | cons h' => exact h'
          | rel h' => exact absurd h' (lt_irrefl a)
      · rw [if_neg (asymm h), if_pos h]
        simp only [Bool.false_eq_true, false_iff]
        intro hl
        cases hl with
        | cons h' => exact absurd h (lt_irrefl a)
        | rel h' => exact absurd h' (asymm h)

theorem strLtb_iff (a b : String) : strLtb a b = true ↔ a < b := by
  rw [String.lt_iff_toList_lt]
  exact charListLt_iff a.data b.data

theorem strLe_iff (a b : String) : strLe a b ↔ a ≤ b := by
  rw [← not_lt, ← strLtb_iff]
  simp [strLe, strLeb]

instance : IsTotal String strLe :=
  ⟨fun a b => by
    rcases le_total a b with h | h
    · exact Or.inl ((strLe_iff a b).mpr h)
    · exact Or.inr ((strLe_iff b a).mpr h)⟩

instance : IsTrans String strLe :=
  ⟨fun a b c hab hbc =>
    (strLe_iff a c).mpr (le_trans ((strLe_iff a b).mp hab) ((strLe_iff b c).mp hbc))⟩

instance : IsAntisymm String strLe :=
  ⟨fun a b hab hba => le_antisymm ((strLe_iff a b).mp hab) ((strLe_iff b a).mp hba)⟩

theorem sortStrings_perm (l : List String) : (sortStrings l).Perm l :=
  List.perm_insertionSort _ l

theorem sortStrings_sorted (l : List String) : (sortStrings l).Sorted strLe :=
  List.sorted_insertionSort _ l

theorem sortStrings_eq_of_perm {l1 l2 : List String} (h : l1.Perm l2) :
    sortStrings l1 = sortStrings l2 :=
  List.eq_of_perm_of_sorted
    ((sortStrings_perm l1).trans (h.trans (sortStrings_perm l2).symm))
    (sortStrings_sorted l1) (sortStrings_sorted l2)

theorem mem_sortStrings {a : String} {l : List String} : a ∈ sortStrings l ↔ a ∈ l :=
  (sortStrings_perm l).mem_iff

/-! ### DFS specification -/

theorem dropUntil_suffix (m : String) : ∀ l : List String, dropUntil m l <:+ l := by
  intro l
  induction l with
  | nil => simp [dropUntil]
  | cons a rest ih =>
    by_cases h : a = m
    · simp [dropUntil, h]
    · simp only [dropUntil, if_neg h]
      exact ih.trans (List.suffix_cons a rest)

theorem dropUntil_ne_nil {m : String} : ∀ {l : List String}, m ∈ l → dropUntil m l ≠ [] := by
  intro l hm
  induction l with
  | nil => simp at hm
  | cons a rest ih =>
    by_cases h : a = m
    · simp [dropUntil, h]
    · simp only [dropUntil, if_neg h]
      exact ih (by rcases List.mem_cons.mp hm with h' | h'; exact absurd h'.symm h; exact h')

theorem dropUntil_headD {m : String} : ∀ {l : List String}, m ∈ l →
    (dropUntil m l).headD "" = m := by
  intro l hm
  induction l with
  | nil => simp at hm
  | cons a rest ih =>
    by_cases h : a = m
    · simp [dropUntil, h]
    · simp only [dropUntil, if_neg h]
      exact ih (by rcases List.mem_cons.mp hm with h' | h'; exact absurd h'.symm h; exact h')

theorem getLastD_irrel {α : Type} {l : List α} (hl : l ≠ []) (d d' : α) :
    l.getLastD d = l.getLastD d' := by
  cases l with
  | nil => exact absurd rfl hl
  | cons a rest => rfl

theorem getLastD_append {α : Type} (p : List α) {s : List α} (hs : s ≠ []) (d : α) :
    (p ++ s).getLastD d = s.getLastD d := by
  rw [List.getLastD_eq_getLast?, List.getLastD_eq_getLast?, List.getLast?_append]
  cases h : s.getLast? with
  | none =>
    have hsome := List.getLast?_isSome.mpr hs
    rw [h] at hsome
    simp at hsome
  | some x => rfl

theorem suffix_getLastD {s l : List String} (hsuf : s <:+ l) (hne : s ≠ []) :
    l.getLastD "" = s.getLastD "" := by
  obtain ⟨p, hp⟩ := hsuf
  rw [← hp, getLastD_append p hne]

/-- Postconditions of one findChildrenAux run, assuming they hold of the
function f that explores one child. -/
theorem findChildrenAux_spec (adj : String → List String)
    (f : String → List String → List String → Option (List String) × List String × List String)
    (hf : ∀ c visited path, path.Nodup → (∀ x ∈ path, x ∈ visited) →
      List.Chain' (fun a b => b ∈ adj a) path →
      (path ≠ [] → c ∈ adj (path.getLastD "")) →
      (∀ x ∈ visited, x ∈ (f c visited path).2.1) ∧
      ((f c visited path).1 = none → (f c visited path).2.2 = path) ∧
      (∀ cyc, (f c visited path).1 = some cyc →
        IsCycleOf adj cyc ∧ cyc.Nodup ∧
        ∀ x ∈ cyc, x = c ∨ x ∈ path ∨ ∃ y, x ∈ adj y)) :
    ∀ (cs visited path : List String), path ≠ [] → path.Nodup →
      (∀ x ∈ path, x ∈ visited) →
      List.Chain' (fun a b => b ∈ adj a) path →
      (∀ c ∈ cs, c ∈ adj (path.getLastD "")) →
      (∀ x ∈ visited, x ∈ (findChildrenAux f cs visited path).2.1) ∧
      ((findChildrenAux f cs visited path).1 = none →
        (findChildrenAux f cs visited path).2.2 = path.dropLast) ∧
      (∀ cyc, (findChildrenAux f cs visited path).1 = some cyc →
        IsCycleOf adj cyc ∧ cyc.Nodup ∧
        ∀ x ∈ cyc, x ∈ path ∨ ∃ y, x ∈ adj y) := by
  intro cs
  induction cs with
  | nil =>
    intro visited path _ _ _ _ _
    refine ⟨fun x hx => hx, fun _ => rfl, fun cyc hcyc => by simp [findChildrenAux] at hcyc⟩
  | cons c rest ih =>
    intro visited path hne hnd hsub hchain hcs
    obtain ⟨hmono, hnone, hsome⟩ :=
      hf c visited path hnd hsub hchain (fun _ => hcs c (List.mem_cons_self c rest))
    rcases hr : f c visited path with ⟨res, v1, p1⟩
    rw [hr] at hmono hnone hsome
    cases res with
    | some cyc =>
      have hres : findChildrenAux f (c :: rest) visited path = (some cyc, v1, p1) := by
        simp [findChildrenAux, hr]
      rw [hres]
      refine ⟨hmono, by simp, fun cyc' hcyc' => ?_⟩
      obtain rfl : cyc = cyc' := by simpa using hcyc'
      obtain ⟨h1, h2, h3⟩ := hsome cyc rfl
      refine ⟨h1, h2, fun x hx => ?_⟩
      rcases h3 x hx with rfl | hx' | hx'
      · exact Or.inr ⟨path.getLastD "", hcs x (List.mem_cons_self x rest)⟩
      · exact Or.inl hx'
      · exact Or.inr hx'
    | none =>
      have hp1 : p1 = path := hnone rfl
      have hres : findChildrenAux f (c :: rest) visited path =
          findChildrenAux f rest v1 path := by
        simp [findChildrenAux, hr, hp1]
      rw [hres]
      obtain ⟨ihmono, ihnone, ihsome⟩ := ih v1 path hne hnd
        (fun x hx => hmono x (hsub x hx)) hchain
        (fun c' hc' => hcs c' (List.mem_cons_of_mem c hc'))
      exact ⟨fun x hx => ihmono x (hmono x hx), ihnone, ihsome⟩

/-- Postconditions of findCycle: the visited set only grows; a run that
finds nothing restores the path; a cycle that is found is a true cycle of
the adjacency function, has no duplicate members, and consists of the
start module, members of the initial path, or adjacency targets. -/
theorem findCycle_spec (adj : String → List String) :
    ∀ (fuel : Nat) (module : String) (visited path : List String),
      path.Nodup → (∀ x ∈ path, x ∈ visited) →
      List.Chain' (fun a b => b ∈ adj a) path →
      (path ≠ [] → module ∈ adj (path.getLastD "")) →
      (∀ x ∈ visited, x ∈ (findCycle adj fuel module visited path).2.1) ∧
      ((findCycle adj fuel module visited path).1 = none →
        (findCycle adj fuel module visited path).2.2 = path) ∧
      (∀ cyc, (findCycle adj fuel module visited path).1 = some cyc →
        IsCycleOf adj cyc ∧ cyc.Nodup ∧
        ∀ x ∈ cyc, x = module ∨ x ∈ path ∨ ∃ y, x ∈ adj y) := by
  intro fuel
  induction fuel with
  | zero =>
    intro module visited path _ _ _ _
    exact ⟨fun x hx => hx, fun _ => rfl, fun cyc hcyc => by simp [findCycle] at hcyc⟩
  | succ fuel ih =>
    intro module visited path hnd hsub hchain hlink
    by_cases h1 : module ∈ path
    · have hres : findCycle adj (fuel + 1) module visited path =
          (some (dropUntil module path), visited, path) := by
        simp [findCycle, h1]
      rw [hres]
      refine ⟨fun x hx => hx, by simp, fun cyc hcyc => ?_⟩
      obtain rfl : dropUntil module path = cyc := by simpa using hcyc
      have hsuf := dropUntil_suffix module path
      have hnenil := dropUntil_ne_nil h1
      have hpathne : path ≠ [] := by rintro rfl; simp at h1
      refine ⟨⟨hnenil, List.Chain'.suffix hchain hsuf, ?_⟩,
        hnd.sublist hsuf.sublist, fun x hx => Or.inr (Or.inl (hsuf.sublist.mem hx))⟩
      rw [dropUntil_headD h1, ← suffix_getLastD hsuf hnenil]
      exact hlink hpathne
    · by_cases h2 : module ∈ visited
      · have hres : findCycle adj (fuel + 1) module visited path = (none, visited, path) := by
          simp [findCycle, h1, h2]
        rw [hres]
        exact ⟨fun x hx => hx, fun _ => rfl, fun cyc hcyc => by simp at hcyc⟩
      · have hres : findCycle adj (fuel + 1) module visited path =
            findChildrenAux (fun c v p => findCycle adj fuel c v p)
              (adj module) (module :: visited) (path ++ [module]) := by
          simp [findCycle, h1, h2]
        rw [hres]
        have hnd' : (path ++ [module]).Nodup := by
          simp [List.nodup_append, hnd, h1]
        have hsub' : ∀ x ∈ path ++ [module], x ∈ module :: visited := by
          intro x hx
          rcases List.mem_append.mp hx with hx' | hx'
          · exact List.mem_cons_of_mem _ (hsub x hx')
          · simp at hx'; simp [hx']
        have hchain' : List.Chain' (fun a b => b ∈ adj a) (path ++ [module]) := by
          rw [List.chain'_append]
          refine ⟨hchain, List.chain'_singleton module, ?_⟩
          intro x hx y hy
          simp only [List.head?_cons, Option.mem_def, Option.some.injEq] at hy
          subst hy
          have hpne : path ≠ [] := by rintro rfl; simp at hx
          have hx' : path.getLastD "" = x := by
            rw [List.getLastD_eq_getLast?]
            simp only [Option.mem_def] at hx
            rw [hx]
            rfl
          rw [← hx']
          exact hlink hpne
        have hcs' : ∀ c ∈ adj module, c ∈ adj ((path ++ [module]).getLastD "") := by
          intro c hc
          rw [List.getLastD_concat]
          exact hc
        obtain ⟨cmono, cnone, csome⟩ := findChildrenAux_spec adj _
          (fun c v p hnd2 hsub2 hchain2 hlink2 => ih c v p hnd2 hsub2 hchain2 hlink2)
          (adj module) (module :: visited) (path ++ [module]) (by simp) hnd' hsub' hchain' hcs'
        refine ⟨fun x hx => cmono x (List.mem_cons_of_mem _ hx), ?_, ?_⟩
        · intro hn
          rw [cnone hn, List.dropLast_concat]
        · intro cyc hcyc
          obtain ⟨hc1, hc2, hc3⟩ := csome cyc hcyc
          refine ⟨hc1, hc2, fun x hx => ?_⟩
          rcases hc3 x hx with hx' | hx'
          · rcases List.mem_append.mp hx' with hx'' | hx''
            · exact Or.inr (Or.inl hx'')
            · simp only [List.mem_singleton] at hx''
              exact Or.inl hx''
          · exact Or.inr (Or.inr hx')

theorem getD_zero_eq_headD (l : List String) : l.getD 0 "" = l.headD "" := by
  cases l <;> rfl

theorem getD_last_eq_getLastD : ∀ (l : List String), l ≠ [] →
    l.getD (l.length - 1) "" = l.getLastD "" := by
  intro l
  induction l with
  | nil => intro h; exact absurd rfl h
  | cons a rest ih =>
    intro _
    cases rest with
    | nil => rfl
    | cons b t =>
      have hR : (a :: b :: t).getLastD "" = (b :: t).getLastD "" := by
        have h0 : (a :: b :: t).getLastD "" = (b :: t).getLastD a := rfl
        rw [h0]
        exact getLastD_irrel (by simp) a ""
      rw [hR, ← ih (by simp)]
      rfl

/-- Consecutive members of a true cycle, wrapping around, are adjacent:
exactly the index arithmetic used by the finding emission loop. -/
theorem IsCycleOf.succ_mem {adj : String → List String} {cyc : List String}
    (h : IsCycleOf adj cyc) {i : Nat} (hi : i < cyc.length) :
    cyc.getD ((i + 1) % cyc.length) "" ∈ adj (cyc.getD i "") := by
  obtain ⟨hne, hchain, hwrap⟩ := h
  by_cases hlast : i + 1 < cyc.length
  · rw [Nat.mod_eq_of_lt hlast]
    have hstep := List.chain'_iff_get.mp hchain i (by omega)
    rw [List.getD_eq_getElem _ _ hi, List.getD_eq_getElem _ _ hlast]
    simpa [List.get_eq_getElem] using hstep
  · have hmod : (i + 1) % cyc.length = 0 := by
      have hone : i + 1 = cyc.length := by omega
      rw [hone, Nat.mod_self]
    have hil : i = cyc.length - 1 := by omega
    rw [hmod, getD_zero_eq_headD, hil, getD_last_eq_getLastD cyc hne]
    exact hwrap

theorem emitCycleFindings_mem {rng : String → String → Range} {cycle : List String}
    {f : CircularDependency} (hf : f ∈ emitCycleFindings rng cycle) :
    ∃ i, i < cycle.length ∧ f.ModuleA = cycle.getD i "" ∧
      f.ModuleB = cycle.getD ((i + 1) % cycle.length) "" ∧
      f.CyclePath = cyclePathString cycle := by
  simp only [emitCycleFindings, List.mem_map, List.mem_range] at hf
  obtain ⟨i, hi, heq⟩ := hf
  exact ⟨i, hi, by rw [← heq], by rw [← heq], by rw [← heq]⟩

theorem mem_depMapAdj {deps : List Dependency} {a b : String} :
    b ∈ depMapAdj deps a ↔ ∃ d ∈ deps, d.From = a ∧ d.To = b := by
  simp only [depMapAdj, List.mem_map, List.mem_filter, beq_iff_eq]
  constructor
  · rintro ⟨d, ⟨hd, hfrom⟩, hto⟩
    exact ⟨d, hd, hfrom, hto⟩
  · rintro ⟨d, hd, hfrom, hto⟩
    exact ⟨d, ⟨hd, hfrom⟩, hto⟩

theorem mem_sortAdj {deps : List Dependency} {a b : String} :
    b ∈ sortStrings (depMapAdj deps a) ↔ ∃ d ∈ deps, d.From = a ∧ d.To = b := by
  rw [mem_sortStrings, mem_depMapAdj]

/-! ### Shape of the findings emitted by the two passes -/

theorem pass1Rev_out_mem (rng : String → String → Range) (m d : String) :
    ∀ (revs : List String) (st : DetectState) (f : CircularDependency),
      f ∈ (pass1Rev rng m d revs st).2 →
      f ∈ st.2 ∨ (f = ⟨m, d, rng m d, ""⟩ ∧ m ∈ revs) := by
  intro revs
  induction revs with
  | nil => intro st f hf; exact Or.inl hf
  | cons r rest ih =>
    intro st f hf
    by_cases hr : r = m
    · simp only [pass1Rev, if_pos hr] at hf
      by_cases hk : normalizeCycle [m, d] ∈ st.1
      · rw [if_pos hk] at hf
        rcases ih st f hf with h | ⟨h1, h2⟩
        · exact Or.inl h
        · exact Or.inr ⟨h1, List.mem_cons_of_mem r h2⟩
      · rw [if_neg hk] at hf
        rcases ih _ f hf with h | ⟨h1, h2⟩
        · rcases List.mem_append.mp h with h' | h'
          · exact Or.inl h'
          · simp only [List.mem_singleton] at h'
            exact Or.inr ⟨h', by rw [hr]; exact List.mem_cons_self m rest⟩
        · exact Or.inr ⟨h1, List.mem_cons_of_mem r h2⟩
    · simp only [pass1Rev, if_neg hr] at hf
      rcases ih st f hf with h | ⟨h1, h2⟩
      · exact Or.inl h
      · exact Or.inr ⟨h1, List.mem_cons_of_mem r h2⟩

theorem pass1Deps_out_mem (adj : String → List String) (rng : String → String → Range)
    (m : String) :
    ∀ (ds : List String) (st : DetectState) (f : CircularDependency),
      f ∈ (pass1Deps adj rng m ds st).2 →
      f ∈ st.2 ∨ ∃ d ∈ ds, f = ⟨m, d, rng m d, ""⟩ ∧ m ∈ adj d := by
  intro ds
  induction ds with
  | nil => intro st f hf; exact Or.inl hf
  | cons d rest ih =>
    intro st f hf
    simp only [pass1Deps] at hf
    rcases ih _ f hf with h | ⟨d', hd', h1, h2⟩
    · rcases pass1Rev_out_mem rng m d (adj d) st f h with h' | ⟨h1, h2⟩
      · exact Or.inl h'
      · exact Or.inr ⟨d, List.mem_cons_self d rest, h1, h2⟩
    · exact Or.inr ⟨d', List.mem_cons_of_mem d hd', h1, h2⟩

theorem pass1_out_mem (adj : String → List String) (rng : String → String → Range) :
    ∀ (ms : List String) (st : DetectState) (f : CircularDependency),
      f ∈ (pass1 adj rng ms st).2 →
      f ∈ st.2 ∨ ∃ m ∈ ms, ∃ d ∈ adj m, f = ⟨m, d, rng m d, ""⟩ ∧ m ∈ adj d := by
  intro ms
  induction ms with
  | nil => intro st f hf; exact Or.inl hf
  | cons m rest ih =>
    intro st f hf
    simp only [pass1] at hf
    rcases ih _ f hf with h | ⟨m', hm', d, hd, h1, h2⟩
    · rcases pass1Deps_out_mem adj rng m (adj m) st f h with h' | ⟨d, hd, h1, h2⟩
      · exact Or.inl h'
      · exact Or.inr ⟨m, List.mem_cons_self m rest, d, hd, h1, h2⟩
    · exact Or.inr ⟨m', List.mem_cons_of_mem m hm', d, hd, h1, h2⟩

theorem pass2_out_mem (adj : String → List String) (rng : String → String → Range)
    (fuel : Nat) :
    ∀ (ms : List String) (st : DetectState) (f : CircularDependency),
      f ∈ (pass2 adj rng fuel ms st).2 →
      f ∈ st.2 ∨ ∃ m ∈ ms, ∃ cyc, (findCycle adj fuel m [] []).1 = some cyc ∧
        f ∈ emitCycleFindings rng cyc := by
  intro ms
  induction ms with
  | nil => intro st f hf; exact Or.inl hf
  | cons m rest ih =>
    intro st f hf
    simp only [pass2] at hf
    rcases ih _ f hf with h | ⟨m', hm', cyc, h1, h2⟩
    · simp only [pass2Step] at h
      rcases hc : (findCycle adj fuel m [] []).1 with _ | cyc
      · rw [hc] at h
        exact Or.inl h
      · rw [hc] at h
        dsimp only at h
        by_cases hk : normalizeCycle cyc ∈ st.1
        · rw [if_pos hk] at h
          exact Or.inl h
        · rw [if_neg hk] at h
          dsimp only at h
          rcases List.mem_append.mp h with h' | h'
          · exact Or.inl h'
          · exact Or.inr ⟨m, List.mem_cons_self m rest, cyc, hc, h'⟩
    · exact Or.inr ⟨m', List.mem_cons_of_mem m hm', cyc, h1, h2⟩

/-! ### Claim C4 -/

/-- Claim C4: every finding returned by detectCircularDependencies has a
(ModuleA, ModuleB) pair that is an edge (From, To) actually present in
the input edge list, for both the pairwise pass and the DFS pass,
including the wrapping pair of a cycle. -/
theorem claim_c4_findings_are_edges (deps : List Dependency) (f : CircularDependency)
    (hf : f ∈ detectCircularDependencies deps) :
    ∃ d ∈ deps, d.From = f.ModuleA ∧ d.To = f.ModuleB := by
  unfold detectCircularDependencies detectWithKeys detectCore at hf
  rcases pass2_out_mem _ _ _ _ _ f hf with h | ⟨m, _, cyc, hcyc, hemit⟩
  · rcases pass1_out_mem _ _ _ _ f h with h0 | ⟨m, _, d, hd, hfeq, _⟩
    · simp at h0
    · subst hfeq
      simpa using mem_sortAdj.mp hd
  · have hspec := (findCycle_spec (fun k => sortStrings (depMapAdj deps k))
      (fuelFor deps) m [] [] (by simp) (by simp) (by simp) (by simp)).2.2 cyc hcyc
    obtain ⟨hcycle, _, _⟩ := hspec
    obtain ⟨i, hi, hA, hB, _⟩ := emitCycleFindings_mem hemit
    have := hcycle.succ_mem hi
    rw [← hA, ← hB] at this
    simpa using mem_sortAdj.mp this

/-- Witness for claim_c4_findings_are_edges on a concrete 2-cycle. -/
theorem claim_c4_findings_are_edges_witness :
    ((⟨"a", "b", ⟨"f", ⟨1, 1, 0⟩, ⟨1, 2, 1⟩⟩, ""⟩ : CircularDependency) ∈
      detectCircularDependencies
        [⟨"a", "b", ⟨"f", ⟨1, 1, 0⟩, ⟨1, 2, 1⟩⟩⟩, ⟨"b", "a", ⟨"f", ⟨2, 1, 2⟩, ⟨2, 2, 3⟩⟩⟩]) ∧
    ∃ d ∈ [(⟨"a", "b", ⟨"f", ⟨1, 1, 0⟩, ⟨1, 2, 1⟩⟩⟩ : Dependency),
           ⟨"b", "a", ⟨"f", ⟨2, 1, 2⟩, ⟨2, 2, 3⟩⟩⟩],
      d.From = "a" ∧ d.To = "b" :=
  ⟨by decide, claim_c4_findings_are_edges
    [⟨"a", "b", ⟨"f", ⟨1, 1, 0⟩, ⟨1, 2, 1⟩⟩⟩, ⟨"b", "a", ⟨"f", ⟨2, 1, 2⟩, ⟨2, 2, 3⟩⟩⟩]
    ⟨"a", "b", ⟨"f", ⟨1, 1, 0⟩, ⟨1, 2, 1⟩⟩, ""⟩ (by decide)⟩

/-! ### Claim C3 -/

theorem chain'_reflTransGen {R : String → String → Prop} :
    ∀ (t : List String) (a : String), List.Chain' R (a :: t) →
      Relation.ReflTransGen R a ((a :: t).getLastD "") := by
  intro t
  induction t with
  | nil => intro a _; exact Relation.ReflTransGen.refl
  | cons b t' ih =>
    intro a hchain
    rw [List.chain'_cons] at hchain
    have h1 : ((a :: b :: t').getLastD "") = ((b :: t').getLastD "") := by
      have h0 : (a :: b :: t').getLastD "" = (b :: t').getLastD a := rfl
      rw [h0]
      exact getLastD_irrel (by simp) a ""
    rw [h1]
    exact Relation.ReflTransGen.head hchain.1 (ih b hchain.2)

/-- A true cycle witnesses that its head reaches itself. -/
theorem IsCycleOf.transGen {adj : String → List String} {cyc : List String}
    (h : IsCycleOf adj cyc) :
    Relation.TransGen (fun a b => b ∈ adj a) (cyc.headD "") (cyc.headD "") := by
  obtain ⟨hne, hchain, hwrap⟩ := h
  cases cyc with
  | nil => exact absurd rfl hne
  | cons a t =>
    exact Relation.TransGen.tail' (chain'_reflTransGen t a hchain) hwrap

/-- Claim C3: when no module can reach itself by following edges,
detectCircularDependencies returns the empty finding list. -/
theorem claim_c3_acyclic_empty (deps : List Dependency)
    (hacyc : ∀ x, ¬ Relation.TransGen (edgeRel deps) x x) :
    detectCircularDependencies deps = [] := by
  rw [List.eq_nil_iff_forall_not_mem]
  intro f hf
  unfold detectCircularDependencies detectWithKeys detectCore at hf
  rcases pass2_out_mem _ _ _ _ _ f hf with h | ⟨m, _, cyc, hcyc, _⟩
  · rcases pass1_out_mem _ _ _ _ f h with h0 | ⟨m, _, d, hd, _, hrev⟩
    · simp at h0
    · have e1 : edgeRel deps m d := mem_sortAdj.mp hd
      have e2 : edgeRel deps d m := mem_sortAdj.mp hrev
      exact hacyc m (Relation.TransGen.tail (Relation.TransGen.single e1) e2)
  · have hspec := (findCycle_spec (fun k => sortStrings (depMapAdj deps k))
      (fuelFor deps) m [] [] (by simp) (by simp) (by simp) (by simp)).2.2 cyc hcyc
    have htg := hspec.1.transGen
    exact hacyc _ (htg.mono (fun a b hb => mem_sortAdj.mp hb))

/-- Witness for claim_c3_acyclic_empty on the single edge a→b. -/
theorem claim_c3_acyclic_empty_witness :
    (∀ x, ¬ Relation.TransGen (edgeRel [⟨"a", "b", ⟨"f", ⟨1, 1, 0⟩, ⟨1, 2, 1⟩⟩⟩]) x x) ∧
    detectCircularDependencies [⟨"a", "b", ⟨"f", ⟨1, 1, 0⟩, ⟨1, 2, 1⟩⟩⟩] = [] := by
  have hedge : ∀ x y, edgeRel [⟨"a", "b", ⟨"f", ⟨1, 1, 0⟩, ⟨1, 2, 1⟩⟩⟩] x y →
      x = "a" ∧ y = "b" := by
    intro x y h
    obtain ⟨d, hd, h1, h2⟩ := h
    simp only [List.mem_singleton] at hd
    subst hd
    exact ⟨h1.symm ▸ rfl, h2.symm ▸ rfl⟩
  have hacyc : ∀ x, ¬ Relation.TransGen (edgeRel [⟨"a", "b", ⟨"f", ⟨1, 1, 0⟩, ⟨1, 2, 1⟩⟩⟩]) x x := by
    have hlast : ∀ x y, Relation.TransGen (edgeRel [⟨"a", "b", ⟨"f", ⟨1, 1, 0⟩, ⟨1, 2, 1⟩⟩⟩]) x y →
        y = "b" := by
      intro x y h
      induction h with
      | single h' => exact (hedge _ _ h').2
      | tail _ h' _ => exact (hedge _ _ h').2
    have hfirst : ∀ x y, Relation.TransGen (edgeRel [⟨"a", "b", ⟨"f", ⟨1, 1, 0⟩, ⟨1, 2, 1⟩⟩⟩]) x y →
        x = "a" := by
      intro x y h
      induction h with
      | single h' => exact (hedge _ _ h').1
      | tail _ _ ih => exact ih
    intro x hx
    have h1 := hlast x x hx
    have h2 := hfirst x x hx
    rw [h1] at h2
    exact absurd h2 (by decide)
  exact ⟨hacyc, claim_c3_acyclic_empty _ hacyc⟩

theorem strLtb_self (a : String) : strLtb a a = false := by
  cases h : strLtb a a with
  | false => rfl
  | true => exact absurd ((strLtb_iff a a).mp h) (lt_irrefl a)

theorem normalizeCycle_single (a : String) : normalizeCycle [a] = a ++ "→" := by
  simp [normalizeCycle, rotateToMin, minIndexGo, joinCycleKey_cons, joinCycleKey_nil,
    String.append_empty]

theorem normalizeCycle_pair (x y : String) :
    normalizeCycle [x, y] =
      if strLtb y x then y ++ "→" ++ (x ++ "→") else x ++ "→" ++ (y ++ "→") := by
  by_cases h : strLtb y x
  · simp [normalizeCycle, rotateToMin, minIndexGo, h, List.rotate_cons_succ,
      joinCycleKey_cons, joinCycleKey_nil, String.append_empty]
  · simp [normalizeCycle, rotateToMin, minIndexGo, h,
      joinCycleKey_cons, joinCycleKey_nil, String.append_empty]

theorem normalizeCycle_self_pair_ne (a : String) :
    normalizeCycle [a, a] ≠ normalizeCycle [a] := by
  intro h
  have hl := congrArg String.length h
  simp only [normalizeCycle_pair, strLtb_self, if_neg, Bool.false_eq_true, if_false,
    normalizeCycle_single, String.length_append, arrowString_length] at hl
  omega

/-! ### Claim C6 -/

theorem findRefsList_append (es1 es2 : List Expr) (ms : List String) :
    findRefsList (es1 ++ es2) ms = findRefsList es1 ms ++ findRefsList es2 ms := by
  induction es1 with
  | nil => rfl
  | cons e rest ih => simp [findRefsList, ih]

theorem findRefsItems_append (is1 is2 : List (Expr × Expr)) (ms : List String) :
    findRefsItems (is1 ++ is2) ms = findRefsItems is1 ms ++ findRefsItems is2 ms := by
  induction is1 with
  | nil => rfl
  | cons i rest ih => simp [findRefsItems, ih]

theorem containsRefsList_false {ms : List String} :
    ∀ {es : List Expr}, containsRefsList es ms = false →
      ∀ e ∈ es, containsModuleRef e ms = false := by
  intro es h e he
  induction es with
  | nil => simp at he
  | cons e' rest ih =>
    simp only [containsRefsList, Bool.or_eq_false_iff] at h
    rcases List.mem_cons.mp he with rfl | he'
    · exact h.1
    · exact ih h.2 he'

theorem containsRefsItems_false {ms : List String} :
    ∀ {items : List (Expr × Expr)}, containsRefsItems items ms = false →
      ∀ i ∈ items, containsModuleRef i.2 ms = false := by
  intro items h i hi
  induction items with
  | nil => simp at hi
  | cons i' rest ih =>
    simp only [containsRefsItems, Bool.or_eq_false_iff] at h
    rcases List.mem_cons.mp hi with rfl | hi'
    · exact h.1.2
    · exact ih h.2 hi'

theorem findRefsList_eq_nil {ms : List String} :
    ∀ {es : List Expr}, (∀ e ∈ es, findModuleReferences e ms = []) →
      findRefsList es ms = [] := by
  intro es h
  induction es with
  | nil => rfl
  | cons e rest ih =>
    simp only [findRefsList, h e (List.mem_cons_self e rest), List.nil_append]
    exact ih (fun e' he' => h e' (List.mem_cons_of_mem e he'))

theorem findRefsItems_eq_nil {ms : List String} :
    ∀ {items : List (Expr × Expr)}, (∀ i ∈ items, findModuleReferences i.2 ms = []) →
      findRefsItems items ms = [] := by
  intro items h
  induction items with
  | nil => rfl
  | cons i rest ih =>
    simp only [findRefsItems, h i (List.mem_cons_self i rest), List.nil_append]
    exact ih (fun i' hi' => h i' (List.mem_cons_of_mem i hi'))

/-- Strong induction on expression size: an expression with no recognized
traversal anywhere yields no references. -/
theorem contains_false_find_nil :
    ∀ (n : Nat) (e : Expr) (ms : List String), sizeOf e ≤ n →
      containsModuleRef e ms = false → findModuleReferences e ms = [] := by
  intro n
  induction n with
  | zero =>
    intro e ms hsize _
    exact absurd hsize (by cases e <;> simp)
  | succ n ih =>
    intro e ms hsize hc
    cases e with
    | scopeTraversal tr =>
      simp only [findModuleReferences]
      match tr, hc with
      | [], _ => rfl
      | [.root name], _ => rfl
      | .root name :: .attr a :: rest, hc =>
        show (if name = "module" then (if a ∈ ms then [a] else []) else []) = []
        simp only [containsModuleRef, Bool.and_eq_false_iff, decide_eq_false_iff_not] at hc
        rcases hc with hc | hc
        · rw [if_neg hc]
        · by_cases hname : name = "module"
          · rw [if_pos hname, if_neg hc]
          · rw [if_neg hname]
      | .root name :: .root b :: rest, _ => rfl
      | .root name :: .index :: rest, _ => rfl
      | .attr a :: rest, _ => rfl
      | .index :: rest, _ => rfl
    | template parts =>
      simp only [containsModuleRef] at hc
      simp only [findModuleReferences]
      refine findRefsList_eq_nil (fun e he => ih e ms ?_ (containsRefsList_false hc e he))
      have h1 := List.sizeOf_lt_of_mem he
      have h2 : sizeOf (Expr.template parts) = 1 + sizeOf parts := by simp
      omega
    | tupleCons exprs =>
      simp only [containsModuleRef] at hc
      simp only [findModuleReferences]
      refine findRefsList_eq_nil (fun e he => ih e ms ?_ (containsRefsList_false hc e he))
      have h1 := List.sizeOf_lt_of_mem he
      have h2 : sizeOf (Expr.tupleCons exprs) = 1 + sizeOf exprs := by simp
      omega
    | objectCons items =>
      simp only [containsModuleRef] at hc
      simp only [findModuleReferences]
      refine findRefsItems_eq_nil (fun i hi => ih i.2 ms ?_ (containsRefsItems_false hc i hi))
      have h1 := List.sizeOf_lt_of_mem hi
      have h2 : sizeOf (Expr.objectCons items) = 1 + sizeOf items := by simp
      have h3 : sizeOf i = 1 + sizeOf i.1 + sizeOf i.2 := by
        cases i
        simp
      omega
    | functionCall fname args =>
      simp only [containsModuleRef] at hc
      simp only [findModuleReferences]
      refine findRefsList_eq_nil (fun e he => ih e ms ?_ (containsRefsList_false hc e he))
      have h1 := List.sizeOf_lt_of_mem he
      have h2 : sizeOf (Expr.functionCall fname args) = 1 + sizeOf fname + sizeOf args := by simp
      omega
    | conditional c t f =>
      simp only [containsModuleRef, Bool.or_eq_false_iff] at hc
      have hsz : sizeOf (Expr.conditional c t f) = 1 + sizeOf c + sizeOf t + sizeOf f := by simp
      simp only [findModuleReferences]
      rw [ih t ms (by omega) hc.1.2, ih f ms (by omega) hc.2]
      rfl
    | forE coll key val cond =>
      simp only [containsModuleRef, Bool.or_eq_false_iff] at hc
      have hsz : sizeOf (Expr.forE coll key val cond) =
          1 + sizeOf coll + sizeOf key + sizeOf val + sizeOf cond := by simp
      simp only [findModuleReferences]
      rw [ih coll ms (by omega) hc.1.1.1, ih val ms (by omega) hc.1.2]
      have hkey : findRefsOpt key ms = [] := by
        cases key with
        | none => rfl
        | some k =>
          simp only [containsRefsOpt] at hc
          have : sizeOf (some k) = 1 + sizeOf k := by simp
          exact ih k ms (by omega) hc.1.1.2
      have hcond : findRefsOpt cond ms = [] := by
        cases cond with
        | none => rfl
        | some k =>
          simp only [containsRefsOpt] at hc
          have : sizeOf (some k) = 1 + sizeOf k := by simp
          exact ih k ms (by omega) hc.2
      rw [hkey, hcond]
      rfl
    | other => rfl

/-- Claim C6: for every composite expression shape handled by the
extractor, nesting a reference-carrying sub-expression inside that shape
surfaces the reference; a recognized traversal itself yields exactly its
module name; an expression containing no recognized traversal anywhere
yields the empty list, as does the unhandled expression kind. -/
theorem claim_c6_extractor_shapes :
    (∀ (ms : List String) (name : String) (rest : List Traverser), name ∈ ms →
      findModuleReferences (.scopeTraversal (.root "module" :: .attr name :: rest)) ms
        = [name]) ∧
    (∀ (ms : List String) (name : String) (e : Expr) (pre post : List Expr),
      name ∈ findModuleReferences e ms →
      name ∈ findModuleReferences (.template (pre ++ e :: post)) ms) ∧
    (∀ (ms : List String) (name : String) (e : Expr) (pre post : List Expr),
      name ∈ findModuleReferences e ms →
      name ∈ findModuleReferences (.tupleCons (pre ++ e :: post)) ms) ∧
    (∀ (ms : List String) (name : String) (k v : Expr) (pre post : List (Expr × Expr)),
      name ∈ findModuleReferences v ms →
      name ∈ findModuleReferences (.objectCons (pre ++ (k, v) :: post)) ms) ∧
    (∀ (ms : List String) (name fname : String) (e : Expr) (pre post : List Expr),
      name ∈ findModuleReferences e ms →
      name ∈ findModuleReferences (.functionCall fname (pre ++ e :: post)) ms) ∧
    (∀ (ms : List String) (name : String) (c t f : Expr),
      name ∈ findModuleReferences t ms →
      name ∈ findModuleReferences (.conditional c t f) ms) ∧
    (∀ (ms : List String) (name : String) (c t f : Expr),
      name ∈ findModuleReferences f ms →
      name ∈ findModuleReferences (.conditional c t f) ms) ∧
    (∀ (ms : List String) (name : String) (coll val : Expr) (key cond : Option Expr),
      name ∈ findModuleReferences coll ms →
      name ∈ findModuleReferences (.forE coll key val cond) ms) ∧
    (∀ (ms : List String) (name : String) (coll k val : Expr) (cond : Option Expr),
      name ∈ findModuleReferences k ms →
      name ∈ findModuleReferences (.forE coll (some k) val cond) ms) ∧
    (∀ (ms : List String) (name : String) (coll val : Expr) (key cond : Option Expr),
      name ∈ findModuleReferences val ms →
      name ∈ findModuleReferences (.forE coll key val cond) ms) ∧
    (∀ (ms : List String) (name : String) (coll val c : Expr) (key : Option Expr),
      name ∈ findModuleReferences c ms →
      name ∈ findModuleReferences (.forE coll key val (some c)) ms) ∧
    (∀ (ms : List String) (e : Expr), containsModuleRef e ms = false →
      findModuleReferences e ms = []) ∧
    (∀ ms : List String, findModuleReferences .other ms = []) := by
  refine ⟨?_, ?_, ?_, ?_, ?_, ?_, ?_, ?_, ?_, ?_, ?_, ?_, fun _ => rfl⟩
  · intro ms name rest hname
    simp [findModuleReferences, hname]
  · intro ms name e pre post h
    simp only [findModuleReferences, findRefsList_append, findRefsList, List.mem_append]
    exact Or.inr (Or.inl h)
  · intro ms name e pre post h
    simp only [findModuleReferences, findRefsList_append, findRefsList, List.mem_append]
    exact Or.inr (Or.inl h)
  · intro ms name k v pre post h
    simp only [findModuleReferences, findRefsItems_append, findRefsItems, List.mem_append]
    exact Or.inr (Or.inl h)
  · intro ms name fname e pre post h
    simp only [findModuleReferences, findRefsList_append, findRefsList, List.mem_append]
    exact Or.inr (Or.inl h)
  · intro ms name c t f h
    simp only [findModuleReferences, List.mem_append]
    exact Or.inl h
  · intro ms name c t f h
    simp only [findModuleReferences, List.mem_append]
    exact Or.inr h
  · intro ms name coll val key cond h
    simp only [findModuleReferences, List.mem_append]
    exact Or.inl (Or.inl (Or.inl h))
  · intro ms name coll k val cond h
    simp only [findModuleReferences, findRefsOpt, List.mem_append]
    exact Or.inl (Or.inl (Or.inr h))
  · intro ms name coll val key cond h
    simp only [findModuleReferences, List.mem_append]
    exact Or.inl (Or.inr h)
  · intro ms name coll val c key h
    simp only [findModuleReferences, findRefsOpt, List.mem_append]
    exact Or.inr h
  · intro ms e hc
    exact contains_false_find_nil (sizeOf e) e ms (le_refl _) hc

/-- Witness for claim_c6_extractor_shapes: a reference nested in a
template surfaces; an expression with no recognized traversal is empty. -/
theorem claim_c6_extractor_shapes_witness :
    ("m" ∈ ["m"] ∧
      "m" ∈ findModuleReferences
        (.template ([Expr.other] ++ (.scopeTraversal [.root "module", .attr "m"]) :: [Expr.other]))
        ["m"]) ∧
    (containsModuleRef (.tupleCons [.other, .scopeTraversal [.root "var", .attr "x"]]) ["m"] = false ∧
      findModuleReferences (.tupleCons [.other, .scopeTraversal [.root "var", .attr "x"]]) ["m"] = []) :=
  ⟨⟨by decide, claim_c6_extractor_shapes.2.1 ["m"] "m"
      (.scopeTraversal [.root "module", .attr "m"]) [Expr.other] [Expr.other]
      (by decide)⟩,
   ⟨by decide, (claim_c6_extractor_shapes.2.2.2.2.2.2.2.2.2.2.2.1) ["m"]
      (.tupleCons [.other, .scopeTraversal [.root "var", .attr "x"]]) (by decide)⟩⟩

/-! ### Claim C7 -/

/-- Splitting at a separator character that occurs in neither prefix is
unambiguous. -/
theorem sep_split {sep : Char} :
    ∀ {x y u v : List Char}, sep ∉ x → sep ∉ y →
      x ++ sep :: u = y ++ sep :: v → x = y ∧ u = v := by
  intro x
  induction x with
  | nil =>
    intro y u v _ hy h
    cases y with
    | nil => simpa using h
    | cons b ys =>
      simp only [List.nil_append, List.cons_append, List.cons.injEq] at h
      exact absurd (by rw [h.1]; exact List.mem_cons_self b ys) hy
  | cons a xs ih =>
    intro y u v hx hy h
    cases y with
    | nil =>
      simp only [List.cons_append, List.nil_append, List.cons.injEq] at h
      exact absurd (by rw [← h.1]; exact List.mem_cons_self a xs) hx
    | cons b ys =>
      simp only [List.cons_append, List.cons.injEq] at h
      obtain ⟨rfl, h2⟩ := h
      obtain ⟨h3, h4⟩ := ih (fun hm => hx (List.mem_cons_of_mem a hm))
        (fun hm => hy (List.mem_cons_of_mem a hm)) h2
      exact ⟨by rw [h3], h4⟩

theorem depKeyStr_data (f t : String) :
    (depKeyStr f t).data = f.data ++ '-' :: '>' :: t.data := by
  show ((f ++ "->") ++ t).data = _
  rw [String.data_append, String.data_append]
  simp

theorem depKeyStr_inj {f t f' t' : String} (hf : ('-' : Char) ∉ f.data)
    (hf' : ('-' : Char) ∉ f'.data) (h : depKeyStr f t = depKeyStr f' t') :
    f = f' ∧ t = t' := by
  have hd := congrArg String.data h
  rw [depKeyStr_data, depKeyStr_data] at hd
  obtain ⟨h1, h2⟩ := sep_split hf hf' hd
  simp only [List.cons.injEq, true_and] at h2
  exact ⟨String.ext h1, String.ext h2⟩

theorem depKeyStr_left_cancel {m t d : String} (h : depKeyStr m t = depKeyStr m d) :
    t = d := by
  have hd := congrArg String.data h
  rw [depKeyStr_data, depKeyStr_data] at hd
  have h2 := List.append_cancel_left hd
  simp only [List.cons.injEq, true_and] at h2
  exact String.ext h2

theorem mem_foldr_append {α β : Type} (g : α → List β) :
    ∀ (l : List α) (x : β),
      (x ∈ l.foldr (fun p acc => g p ++ acc) []) ↔ ∃ p ∈ l, x ∈ g p := by
  intro l x
  induction l with
  | nil => simp
  | cons p rest ih => simp [List.mem_append, ih]

/-- Every traversal entry's module label was collected by collectModules. -/
theorem moduleAttrSeq_label_mem {files : List (String × File)} {e : String × Attribute}
    (he : e ∈ moduleAttrSeq files) : e.1 ∈ collectModules files := by
  unfold moduleAttrSeq at he
  rw [mem_foldr_append] at he
  obtain ⟨p, hp, he2⟩ := he
  unfold collectModules
  rw [mem_foldr_append]
  refine ⟨p, hp, ?_⟩
  cases hbody : p.2.body with
  | none =>
    rw [hbody] at he2
    simp at he2
  | some blocks =>
    rw [hbody] at he2
    rw [mem_foldr_append] at he2
    obtain ⟨b, hb, he3⟩ := he2
    dsimp only
    by_cases hmod : b.type = "module" ∧ b.labels ≠ []
    · rw [if_pos hmod] at he3
      obtain ⟨a, _, rfl⟩ := List.mem_map.mp he3
      refine List.mem_filterMap.mpr ⟨b, (List.perm_insertionSort _ blocks).mem_iff.mp hb, ?_⟩
      rw [if_pos hmod]
    · rw [if_neg hmod] at he3
      simp at he3

theorem findRefsList_mem {ms : List String} :
    ∀ {es : List Expr} {x : String}, x ∈ findRefsList es ms →
      ∃ e ∈ es, x ∈ findModuleReferences e ms := by
  intro es x h
  induction es with
  | nil => simp [findRefsList] at h
  | cons e rest ih =>
    rcases List.mem_append.mp h with h' | h'
    · exact ⟨e, List.mem_cons_self e rest, h'⟩
    · obtain ⟨e', he', hx⟩ := ih h'
      exact ⟨e', List.mem_cons_of_mem e he', hx⟩

theorem findRefsItems_mem {ms : List String} :
    ∀ {items : List (Expr × Expr)} {x : String}, x ∈ findRefsItems items ms →
      ∃ i ∈ items, x ∈ findModuleReferences i.2 ms := by
  intro items x h
  induction items with
  | nil => simp [findRefsItems] at h
  | cons i rest ih =>
    rcases List.mem_append.mp h with h' | h'
    · exact ⟨i, List.mem_cons_self i rest, h'⟩
    · obtain ⟨i', hi', hx⟩ := ih h'
      exact ⟨i', List.mem_cons_of_mem i hi', hx⟩

/-- The extractor only returns known module names. -/
theorem findRefs_subset :
    ∀ (n : Nat) (e : Expr) (ms : List String), sizeOf e ≤ n →
      ∀ x ∈ findModuleReferences e ms, x ∈ ms := by
  intro n
  induction n with
  | zero =>
    intro e ms hsize _
    exact absurd hsize (by cases e <;> simp)
  | succ n ih =>
    intro e ms hsize x hx
    cases e with
    | scopeTraversal tr =>
      match tr, hx with
      | .root name :: .attr a :: rest, hx =>
        have hx' : x ∈ (if name = "module" then (if a ∈ ms then [a] else []) else []) := hx
        by_cases h1 : name = "module"
        · rw [if_pos h1] at hx'
          by_cases h2 : a ∈ ms
          · rw [if_pos h2] at hx'
            simp only [List.mem_singleton] at hx'
            rw [hx']
            exact h2
          · rw [if_neg h2] at hx'
            simp at hx'
        · rw [if_neg h1] at hx'
          simp at hx'
    | template parts =>
      obtain ⟨e, he, hx'⟩ := findRefsList_mem hx
      have h1 := List.sizeOf_lt_of_mem he
      have h2 : sizeOf (Expr.template parts) = 1 + sizeOf parts := by simp
      exact ih e ms (by omega) x hx'
    | tupleCons exprs =>
      obtain ⟨e, he, hx'⟩ := findRefsList_mem hx
      have h1 := List.sizeOf_lt_of_mem he
      have h2 : sizeOf (Expr.tupleCons exprs) = 1 + sizeOf exprs := by simp
      exact ih e ms (by omega) x hx'
    | objectCons items =>
      obtain ⟨i, hi, hx'⟩ := findRefsItems_mem hx
      have h1 := List.sizeOf_lt_of_mem hi
      have h2 : sizeOf (Expr.objectCons items) = 1 + sizeOf items := by simp
      have h3 : sizeOf i = 1 + sizeOf i.1 + sizeOf i.2 := by
        cases i
        simp
      exact ih i.2 ms (by omega) x hx'
    | functionCall fname args =>
      obtain ⟨e, he, hx'⟩ := findRefsList_mem hx
      have h1 := List.sizeOf_lt_of_mem he
      have h2 : sizeOf (Expr.functionCall fname args) = 1 + sizeOf fname + sizeOf args := by
        simp
      exact ih e ms (by omega) x hx'
    | conditional c t f =>
      have hsz : sizeOf (Expr.conditional c t f) = 1 + sizeOf c + sizeOf t + sizeOf f := by
        simp
      rcases List.mem_append.mp hx with h' | h'
      · exact ih t ms (by omega) x h'
      · exact ih f ms (by omega) x h'
    | forE coll key val cond =>
      have hsz : sizeOf (Expr.forE coll key val cond) =
          1 + sizeOf coll + sizeOf key + sizeOf val + sizeOf cond := by simp
      rcases List.mem_append.mp hx with h' | h'
      · rcases List.mem_append.mp h' with h'' | h''
        · rcases List.mem_append.mp h'' with h3 | h3
          · exact ih coll ms (by omega) x h3
          · cases key with
            | none => simp [findRefsOpt] at h3
            | some k =>
              have : sizeOf (some k) = 1 + sizeOf k := by simp
              exact ih k ms (by omega) x h3
        · exact ih val ms (by omega) x h''
      · cases cond with
        | none => simp [findRefsOpt] at h'
        | some k =>
          have : sizeOf (some k) = 1 + sizeOf k := by simp
          exact ih k ms (by omega) x h'
    | other => simp [findModuleReferences] at hx

theorem addRefs_key_mem (m : String) (rng : Range) :
    ∀ (refs : List String) (st : List String × List Dependency) (k : String),
      (k ∈ (addRefs m rng refs st).1 ↔ k ∈ st.1 ∨ ∃ d ∈ refs, k = depKeyStr m d) := by
  intro refs
  induction refs with
  | nil => simp [addRefs]
  | cons d rest ih =>
    intro st k
    by_cases hk : depKeyStr m d ∈ st.1
    · rw [show addRefs m rng (d :: rest) st = addRefs m rng rest st by
        simp [addRefs, hk], ih]
      constructor
      · rintro (h | ⟨d', hd', rfl⟩)
        · exact Or.inl h
        · exact Or.inr ⟨d', List.mem_cons_of_mem d hd', rfl⟩
      · rintro (h | ⟨d', hd', rfl⟩)
        · exact Or.inl h
        · rcases List.mem_cons.mp hd' with rfl | hd''
          · exact Or.inl hk
          · exact Or.inr ⟨d', hd'', rfl⟩
    · rw [show addRefs m rng (d :: rest) st =
          addRefs m rng rest (depKeyStr m d :: st.1, st.2 ++ [⟨m, d, rng⟩]) by
        simp [addRefs, hk], ih]
      constructor
      · rintro (h | ⟨d', hd', rfl⟩)
        · rcases List.mem_cons.mp h with rfl | h'
          · exact Or.inr ⟨d, List.mem_cons_self d rest, rfl⟩
          · exact Or.inl h'
        · exact Or.inr ⟨d', List.mem_cons_of_mem d hd', rfl⟩
      · rintro (h | ⟨d', hd', rfl⟩)
        · exact Or.inl (List.mem_cons_of_mem _ h)
        · rcases List.mem_cons.mp hd' with rfl | hd''
          · exact Or.inl (List.mem_cons_self _ _)
          · exact Or.inr ⟨d', hd'', rfl⟩

theorem addRefs_filter (m : String) (rng : Range) (f t : String) :
    ∀ (refs : List String) (st : List String × List Dependency),
      (addRefs m rng refs st).2.filter (fun d => d.From == f && d.To == t) =
        st.2.filter (fun d => d.From == f && d.To == t) ++
          (if f = m ∧ t ∈ refs ∧ depKeyStr m t ∉ st.1 then [⟨m, t, rng⟩] else []) := by
  intro refs
  induction refs with
  | nil =>
    intro st
    simp [addRefs]
  | cons d rest ih =>
    intro st
    by_cases hk : depKeyStr m d ∈ st.1
    · rw [show addRefs m rng (d :: rest) st = addRefs m rng rest st by
        simp [addRefs, hk], ih]
      congr 1
      refine if_congr ?_ rfl rfl
      constructor
      · rintro ⟨rfl, ht, hnk⟩
        exact ⟨rfl, List.mem_cons_of_mem d ht, hnk⟩
      · rintro ⟨rfl, ht, hnk⟩
        rcases List.mem_cons.mp ht with rfl | ht'
        · exact absurd hk hnk
        · exact ⟨rfl, ht', hnk⟩
    · rw [show addRefs m rng (d :: rest) st =
          addRefs m rng rest (depKeyStr m d :: st.1, st.2 ++ [⟨m, d, rng⟩]) by
        simp [addRefs, hk], ih]
      dsimp only
      rw [List.filter_append]
      by_cases hft : f = m ∧ d = t
      · obtain ⟨hfm, hdt⟩ := hft
        subst hfm
        subst hdt
        have hsing : [(⟨f, d, rng⟩ : Dependency)].filter
            (fun x => x.From == f && x.To == d) = [⟨f, d, rng⟩] := by
          simp
        rw [hsing]
        have hcond1 : ¬(f = f ∧ d ∈ rest ∧ depKeyStr f d ∉ depKeyStr f d :: st.1) := by
          rintro ⟨_, _, hnk⟩
          exact hnk (List.mem_cons_self _ _)
        rw [if_neg hcond1, if_pos ⟨rfl, List.mem_cons_self d rest, hk⟩]
        simp
      · have hbool : ((m : String) == f && (d : String) == t) = false := by
          rcases not_and_or.mp hft with h | h
          · have hmf : (m == f) = false := by
              simp only [beq_eq_false_iff_ne, ne_eq]
              exact fun hm => h hm.symm
            simp [hmf]
          · have hdt : (d == t) = false := by
              simp only [beq_eq_false_iff_ne, ne_eq]
              exact h
            simp [hdt]
        have hsing : [(⟨m, d, rng⟩ : Dependency)].filter
            (fun x => x.From == f && x.To == t) = [] := by
          simp only [List.filter_cons, List.filter_nil]
          rw [show ((⟨m, d, rng⟩ : Dependency).From == f &&
            (⟨m, d, rng⟩ : Dependency).To == t) = false from hbool]
          rfl
        rw [hsing, List.append_nil]
        congr 1
        refine if_congr ?_ rfl rfl
        constructor
        · rintro ⟨rfl, ht', hnk⟩
          exact ⟨rfl, List.mem_cons_of_mem d ht',
            fun hmem => hnk (List.mem_cons_of_mem _ hmem)⟩
        · rintro ⟨rfl, ht', hnk⟩
          have hdt : d ≠ t := fun hdt => hft ⟨rfl, hdt⟩
          rcases List.mem_cons.mp ht' with heq | ht''
          · exact absurd heq.symm hdt
          · refine ⟨rfl, ht'', fun hmem => ?_⟩
            rcases List.mem_cons.mp hmem with heq | hmem'
            · exact hdt (depKeyStr_left_cancel heq).symm
            · exact hnk hmem'

/-- The seen-set/edge-list characterization of the buildDependencies fold,
for a pair of hyphen-free names: the edges for the pair (f, t) found so
far are followed, when the pair's key is not yet seen, by the single edge
made from the first traversal entry whose module is f and whose attribute
references t. -/
theorem buildFold_spec (modules : List String) (f t : String)
    (hf : ('-' : Char) ∉ f.data) :
    ∀ (seq : List (String × Attribute)) (st : List String × List Dependency),
      (∀ e ∈ seq, ('-' : Char) ∉ e.1.data) →
      ((seq.foldl (fun st entry =>
          addRefs entry.1 entry.2.range (findModuleReferences entry.2.expr modules) st)
        st).2.filter (fun d => d.From == f && d.To == t)) =
        st.2.filter (fun d => d.From == f && d.To == t) ++
          (if depKeyStr f t ∈ st.1 then [] else
            ((seq.filter (fun e => e.1 == f &&
                decide (t ∈ findModuleReferences e.2.expr modules))).head?.map
              (fun e => (⟨f, t, e.2.range⟩ : Dependency))).toList) := by
  intro seq
  induction seq with
  | nil =>
    intro st _
    simp
  | cons e seq' ih =>
    intro st hlab
    have hlabe : ('-' : Char) ∉ e.1.data := hlab e (List.mem_cons_self e seq')
    simp only [List.foldl_cons]
    rw [ih _ (fun x hx => hlab x (List.mem_cons_of_mem e hx))]
    rw [addRefs_filter]
    have hiff : (depKeyStr f t ∈
        (addRefs e.1 e.2.range (findModuleReferences e.2.expr modules) st).1) ↔
        (depKeyStr f t ∈ st.1 ∨
          (f = e.1 ∧ t ∈ findModuleReferences e.2.expr modules)) := by
      rw [addRefs_key_mem]
      constructor
      · rintro (h | ⟨d, hd, heq⟩)
        · exact Or.inl h
        · obtain ⟨h1, h2⟩ := depKeyStr_inj hf hlabe heq
          rw [← h2] at hd
          exact Or.inr ⟨h1, hd⟩
      · rintro (h | ⟨h1, h2⟩)
        · exact Or.inl h
        · exact Or.inr ⟨t, h2, by rw [h1]⟩
    by_cases hst : depKeyStr f t ∈ st.1
    · have hch : ¬(f = e.1 ∧ t ∈ findModuleReferences e.2.expr modules ∧
          depKeyStr e.1 t ∉ st.1) := by
        rintro ⟨rfl, _, hnk⟩
        exact hnk hst
      rw [if_neg hch, if_pos (hiff.mpr (Or.inl hst)), if_pos hst]
      simp
    · by_cases hhit : f = e.1 ∧ t ∈ findModuleReferences e.2.expr modules
      · have hch : (f = e.1 ∧ t ∈ findModuleReferences e.2.expr modules ∧
            depKeyStr e.1 t ∉ st.1) := ⟨hhit.1, hhit.2, by rw [← hhit.1]; exact hst⟩
        rw [if_pos hch, if_pos (hiff.mpr (Or.inr hhit)), if_neg hst]
        have hpe : (e.1 == f && decide (t ∈ findModuleReferences e.2.expr modules)) = true := by
          simp only [Bool.and_eq_true, beq_iff_eq, decide_eq_true_eq]
          exact ⟨hhit.1.symm, hhit.2⟩
        rw [List.filter_cons, if_pos hpe, ← hhit.1]
        simp
      · have hch : ¬(f = e.1 ∧ t ∈ findModuleReferences e.2.expr modules ∧
            depKeyStr e.1 t ∉ st.1) := by
          rintro ⟨h1, h2, _⟩
          exact hhit ⟨h1, h2⟩
        have hkey2 : depKeyStr f t ∉
            (addRefs e.1 e.2.range (findModuleReferences e.2.expr modules) st).1 := by
          rw [hiff]
          rintro (h | h)
          · exact hst h
          · exact hhit h
        rw [if_neg hch, if_neg hkey2, if_neg hst]
        have hpe : (e.1 == f && decide (t ∈ findModuleReferences e.2.expr modules)) = false := by
          rcases not_and_or.mp hhit with h | h
          · have : (e.1 == f) = false := by
              simp only [beq_eq_false_iff_ne, ne_eq]
              exact fun hm => h hm.symm
            simp [this]
          · have : decide (t ∈ findModuleReferences e.2.expr modules) = false := by
              simpa using h
            simp [this]
        rw [List.filter_cons, if_neg (by simp [hpe])]
        simp

/-- Claim C7 counterexample: dedup is by the string from ++ "->" ++ to,
not by the ordered (from, to) pair.  Module "a" (traversed first)
references "b->c", marking the key "a->b->c" as seen; module "a->b" has
two distinct attributes both referencing "c", whose pair ("a->b", "c")
yields the very same key, so zero edges come out for that pair although
the claim promises exactly one. -/
theorem claim_c7_counterexample :
    ((moduleAttrSeq exampleFilesCollide).filter (fun e => e.1 == "a->b" &&
        decide ("c" ∈ findModuleReferences e.2.expr
          (collectModules exampleFilesCollide)))).length = 2 ∧
    ((buildDependencies exampleFilesCollide (collectModules exampleFilesCollide)).filter
      (fun d => d.From == "a->b" && d.To == "c")).length = 0 := by
  constructor
  · decide
  · decide

/-- Claim C7 (amended): buildDependencies deduplicates via the seen set
keyed on the string from ++ "->" ++ to, which for hyphen-free from-names
coincides with deduplication by the ordered (from, to) pair: the output
contains at most one edge per pair, exactly one exactly when some
attribute of a module block labeled f references t, and that edge's
Range is the range of the first such attribute in the deterministic
traversal order (files sorted by name, blocks and attributes sorted by
start line). -/
theorem claim_c7_dedup_by_pair (files : List (String × File)) (f t : String)
    (hmod : ∀ m ∈ collectModules files, ('-' : Char) ∉ m.data)
    (hf : ('-' : Char) ∉ f.data) :
    (buildDependencies files (collectModules files)).filter
        (fun d => d.From == f && d.To == t) =
      (((moduleAttrSeq files).filter (fun e => e.1 == f &&
          decide (t ∈ findModuleReferences e.2.expr (collectModules files)))).head?.map
        (fun e => (⟨f, t, e.2.range⟩ : Dependency))).toList := by
  unfold buildDependencies
  rw [buildFold_spec (collectModules files) f t hf (moduleAttrSeq files) ([], [])
    (fun e he => hmod e.1 (moduleAttrSeq_label_mem he))]
  simp

/-- Witness for claim_c7_dedup_by_pair: module "a" has two attributes
both referencing "b"; exactly one a→b edge comes out, carrying the first
attribute's range. -/
theorem claim_c7_dedup_by_pair_witness :
    (buildDependencies exampleFilesDup (collectModules exampleFilesDup)).filter
        (fun d => d.From == "a" && d.To == "b") =
      (((moduleAttrSeq exampleFilesDup).filter (fun e => e.1 == "a" &&
          decide ("b" ∈ findModuleReferences e.2.expr
            (collectModules exampleFilesDup)))).head?.map
        (fun e => (⟨"a", "b", e.2.range⟩ : Dependency))).toList :=
  claim_c7_dedup_by_pair exampleFilesDup "a" "b" (by decide) (by decide)

/-! ### Claim C5 -/

/-- Claim C5: detectCircularDependencies is deterministic.  The only
map-iteration nondeterminism inside the detector is the enumeration of
the depMap key set (the other key enumeration merely picks the order in
which adjacency lists get sorted, which cannot influence their final
contents); any two enumerations of the key set produce identical finding
lists, element for element and in order, because the module names are
sorted before traversal (and each adjacency list is sorted as well). -/
theorem claim_c5_deterministic (deps : List Dependency) (keys1 keys2 : List String)
    (h1 : keys1.Perm (depKeys deps)) (h2 : keys2.Perm (depKeys deps)) :
    detectWithKeys keys1 deps = detectWithKeys keys2 deps := by
  unfold detectWithKeys
  rw [sortStrings_eq_of_perm (h1.trans h2.symm)]

/-- Witness for claim_c5_deterministic: two enumeration orders of the key
set on a 2-cycle. -/
theorem claim_c5_deterministic_witness :
    (["b", "a"].Perm (depKeys [⟨"a", "b", ⟨"f", ⟨1, 1, 0⟩, ⟨1, 2, 1⟩⟩⟩,
                               ⟨"b", "a", ⟨"f", ⟨2, 1, 2⟩, ⟨2, 2, 3⟩⟩⟩])) ∧
    (["a", "b"].Perm (depKeys [⟨"a", "b", ⟨"f", ⟨1, 1, 0⟩, ⟨1, 2, 1⟩⟩⟩,
                               ⟨"b", "a", ⟨"f", ⟨2, 1, 2⟩, ⟨2, 2, 3⟩⟩⟩])) ∧
    detectWithKeys ["b", "a"] [⟨"a", "b", ⟨"f", ⟨1, 1, 0⟩, ⟨1, 2, 1⟩⟩⟩,
                               ⟨"b", "a", ⟨"f", ⟨2, 1, 2⟩, ⟨2, 2, 3⟩⟩⟩] =
      detectWithKeys ["a", "b"] [⟨"a", "b", ⟨"f", ⟨1, 1, 0⟩, ⟨1, 2, 1⟩⟩⟩,
                                 ⟨"b", "a", ⟨"f", ⟨2, 1, 2⟩, ⟨2, 2, 3⟩⟩⟩] :=
  ⟨by decide, by decide,
    claim_c5_deterministic _ ["b", "a"] ["a", "b"] (by decide) (by decide)⟩

/-! ### Claim C8 -/

theorem emitAll_fail (emit : String → Range → Option String)
    (failDep : CircularDependency) (post : List CircularDependency) (e : String)
    (hfail : emit (renderMessage failDep) failDep.Range = some e) :
    ∀ (pre : List CircularDependency),
      (∀ d ∈ pre, emit (renderMessage d) d.Range = none) →
      emitAll emit (pre ++ failDep :: post) =
        (pre.map renderMessage ++ [renderMessage failDep], some e) := by
  intro pre
  induction pre with
  | nil =>
    intro _
    simp only [List.nil_append, emitAll, hfail, List.map_nil]
  | cons d pre' ih =>
    intro hpre
    have hd : emit (renderMessage d) d.Range = none := hpre d (List.mem_cons_self d pre')
    simp only [List.cons_append, emitAll, hd, List.append_eq,
      ih (fun x hx => hpre x (List.mem_cons_of_mem d hx)), List.map_cons]

/-- Claim C8: when delivering one finding fails, Check returns that error
unmodified immediately: the EmitIssue calls made are exactly the renders
of the findings up to and including the failing one, each attempted once
(no retry), and nothing after the failing one is delivered. -/
theorem claim_c8_emit_error_propagates (runner : Runner) (files : List (String × File))
    (pre post : List CircularDependency) (failDep : CircularDependency) (e : String)
    (hfiles : runner.getFilesResult = .ok files)
    (hsplit : detectCircularDependencies (buildDependencies files (collectModules files)) =
      pre ++ failDep :: post)
    (hpre : ∀ d ∈ pre, runner.emitIssue (renderMessage d) d.Range = none)
    (hfail : runner.emitIssue (renderMessage failDep) failDep.Range = some e) :
    Check runner = (pre.map renderMessage ++ [renderMessage failDep], some e) := by
  unfold Check
  rw [hfiles]
  show emitAll runner.emitIssue
    (detectCircularDependencies (buildDependencies files (collectModules files))) = _
  rw [hsplit]
  exact emitAll_fail _ _ _ _ hfail pre hpre

/-- Witness for claim_c8_emit_error_propagates: a runner whose file set
holds a 2-cycle and whose first EmitIssue call fails. -/
theorem claim_c8_emit_error_propagates_witness :
    Check ⟨.ok [("main.tf", ⟨some [
        ⟨"module", ["module_a"],
          [⟨"x", .scopeTraversal [.root "module", .attr "module_b", .attr "o"],
            ⟨"main.tf", ⟨1, 1, 0⟩, ⟨1, 9, 8⟩⟩⟩], ⟨"main.tf", ⟨1, 1, 0⟩, ⟨3, 1, 20⟩⟩⟩,
        ⟨"module", ["module_b"],
          [⟨"x", .scopeTraversal [.root "module", .attr "module_a", .attr "o"],
            ⟨"main.tf", ⟨4, 1, 30⟩, ⟨4, 9, 38⟩⟩⟩], ⟨"main.tf", ⟨4, 1, 30⟩, ⟨6, 1, 50⟩⟩⟩]⟩)],
      fun _ _ => some "boom"⟩ =
      (["Circular dependency detected between modules: module_a ↔ module_b"], some "boom") := by
  have h := claim_c8_emit_error_propagates
    ⟨.ok [("main.tf", ⟨some [
        ⟨"module", ["module_a"],
          [⟨"x", .scopeTraversal [.root "module", .attr "module_b", .attr "o"],
            ⟨"main.tf", ⟨1, 1, 0⟩, ⟨1, 9, 8⟩⟩⟩], ⟨"main.tf", ⟨1, 1, 0⟩, ⟨3, 1, 20⟩⟩⟩,
        ⟨"module", ["module_b"],
          [⟨"x", .scopeTraversal [.root "module", .attr "module_a", .attr "o"],
            ⟨"main.tf", ⟨4, 1, 30⟩, ⟨4, 9, 38⟩⟩⟩], ⟨"main.tf", ⟨4, 1, 30⟩, ⟨6, 1, 50⟩⟩⟩]⟩)],
      fun _ _ => some "boom"⟩
    [("main.tf", ⟨some [
        ⟨"module", ["module_a"],
          [⟨"x", .scopeTraversal [.root "module", .attr "module_b", .attr "o"],
            ⟨"main.tf", ⟨1, 1, 0⟩, ⟨1, 9, 8⟩⟩⟩], ⟨"main.tf", ⟨1, 1, 0⟩, ⟨3, 1, 20⟩⟩⟩,
        ⟨"module", ["module_b"],
          [⟨"x", .scopeTraversal [.root "module", .attr "module_a", .attr "o"],
            ⟨"main.tf", ⟨4, 1, 30⟩, ⟨4, 9, 38⟩⟩⟩], ⟨"main.tf", ⟨4, 1, 30⟩, ⟨6, 1, 50⟩⟩⟩]⟩)]
    [] []
    ⟨"module_a", "module_b", ⟨"main.tf", ⟨1, 1, 0⟩, ⟨1, 9, 8⟩⟩, ""⟩ "boom"
    rfl (by decide) (by intro d hd; simp at hd) rfl
  exact h

/-! ### Claim C2 -/

/-- detectCircularDependencies only looks at the input edge list through
the key set, the per-key target multisets and the per-pair filtered
sublists: two edge lists that are permutations of each other with
identical per-pair sublists (e.g. any two orders of a duplicate-free
edge list) detect identically. -/
theorem detect_ext {deps deps' : List Dependency} (hperm : deps.Perm deps')
    (hclass : ∀ f t, deps.filter (fun d => d.From == f && d.To == t) =
      deps'.filter (fun d => d.From == f && d.To == t)) :
    detectCircularDependencies deps = detectCircularDependencies deps' := by
  unfold detectCircularDependencies detectWithKeys
  have h1 : sortStrings (depKeys deps) = sortStrings (depKeys deps') :=
    sortStrings_eq_of_perm ((hperm.map Dependency.From).dedup)
  have h2 : (fun k => sortStrings (depMapAdj deps k)) =
      (fun k => sortStrings (depMapAdj deps' k)) := by
    funext k
    exact sortStrings_eq_of_perm ((hperm.filter _).map Dependency.To)
  have h3 : rangeToUse deps = rangeToUse deps' := by
    funext f t
    unfold rangeToUse lookupRange
    rw [hclass f t]
  have h4 : fuelFor deps = fuelFor deps' := by
    unfold fuelFor
    rw [((hperm.map Dependency.From).append (hperm.map Dependency.To)).dedup.length_eq]
  rw [h1, h2, h3, h4]

theorem perm_eq_of_length_le_one {α : Type} {l l' : List α} (h : l.Perm l')
    (hlen : l'.length ≤ 1) : l = l' := by
  cases l' with
  | nil => exact h.eq_nil
  | cons x t =>
    cases t with
    | nil => exact List.perm_singleton.mp h
    | cons y t' => simp at hlen

theorem strLtb_of_lt {a b : String} (h : a < b) : strLtb a b = true :=
  (strLtb_iff a b).mpr h

theorem strLtb_false_of_lt {a b : String} (h : a < b) : strLtb b a = false := by
  cases hc : strLtb b a with
  | false => rfl
  | true => exact absurd ((strLtb_iff b a).mp hc) (asymm h)

theorem strLe_of_lt {a b : String} (h : a < b) : strLe a b :=
  (strLe_iff a b).mpr (le_of_lt h)

/-! ### Claim C9 -/

/-- Claim C9 counterexample: the claim quantifies over every edge list
containing a self-loop (A, A), but when the input also contains the
2-cycle a↔b, the DFS pass's first-found cycle per start module is the
2-cycle (its key is already reported, so the start is skipped), and the
self-loop finding for (b, b) is emitted only once, by the pairwise pass:
exactly one finding with ModuleA = ModuleB = "b", not two. -/
theorem claim_c9_counterexample :
    ((detectCircularDependencies
        [⟨"a", "b", ⟨"f", ⟨1, 1, 0⟩, ⟨1, 2, 1⟩⟩⟩,
         ⟨"b", "a", ⟨"f", ⟨2, 1, 2⟩, ⟨2, 2, 3⟩⟩⟩,
         ⟨"b", "b", ⟨"f", ⟨3, 1, 4⟩, ⟨3, 2, 5⟩⟩⟩]).filter
      (fun f => f.ModuleA == "b" && f.ModuleB == "b")).length = 1 := by decide

/-- Claim C9 (amended): for the edge list consisting solely of the
self-loop edge (A, A), detectCircularDependencies returns two findings,
not one: the pairwise pass emits ModuleA = ModuleB = A with empty
CyclePath under the canonical key A→A→, and the DFS pass emits a second
finding with CyclePath "A → A" under the distinct canonical key A→. -/
theorem claim_c9_self_loop_two_findings (A : String) (r : Range)
    (hr : r.filename ≠ "") :
    detectCircularDependencies [⟨A, A, r⟩] =
      [⟨A, A, r, ""⟩, ⟨A, A, r, A ++ " → " ++ A⟩] ∧
    normalizeCycle [A, A] = A ++ "→" ++ (A ++ "→") ∧
    normalizeCycle [A] = A ++ "→" ∧
    normalizeCycle [A, A] ≠ normalizeCycle [A] := by
  have hsA : sortStrings (depMapAdj [⟨A, A, r⟩] A) = [A] := by
    simp [depMapAdj]
    rfl
  have hrng : rangeToUse [⟨A, A, r⟩] A A = r := by
    simp [rangeToUse, lookupRange, hr]
  have hkeys : depKeys [⟨A, A, r⟩] = [A] := by
    simp [depKeys]
  have hfuel : fuelFor [⟨A, A, r⟩] = 2 := by
    simp [fuelFor]
  have hne : normalizeCycle [A] ≠ normalizeCycle [A, A] :=
    Ne.symm (normalizeCycle_self_pair_ne A)
  refine ⟨?_, ?_, normalizeCycle_single A, normalizeCycle_self_pair_ne A⟩
  · rw [detectCircularDependencies, detectWithKeys, hkeys, hfuel]
    show (pass2 _ _ 2 _ (pass1 _ _ _ ([], []))).2 = _
    rw [sortStrings_singleton]
    simp only [pass1, pass1Deps, pass1Rev, hsA, List.not_mem_nil, if_false, if_pos rfl,
      List.nil_append, eq_self_iff_true, if_true, ite_false, ite_true]
    simp only [pass2, pass2Step, findCycle, findChildrenAux, hsA, List.not_mem_nil,
      List.mem_singleton, if_false, ite_false, ite_true, eq_self_iff_true, if_true,
      List.nil_append, dropUntil, hne, hrng]
    simp [emitCycleFindings, cyclePathString, joinSep, hrng, normalizeCycle_single, hne,
      List.range_succ, List.range_zero, Nat.mod_one]
  · rw [normalizeCycle_pair, strLtb_self]
    simp

/-- Witness for claim_c9_self_loop_two_findings at A = "a". -/
theorem claim_c9_self_loop_two_findings_witness :
    detectCircularDependencies [⟨"a", "a", ⟨"f", ⟨1, 1, 0⟩, ⟨1, 2, 1⟩⟩⟩] =
      [⟨"a", "a", ⟨"f", ⟨1, 1, 0⟩, ⟨1, 2, 1⟩⟩, ""⟩,
       ⟨"a", "a", ⟨"f", ⟨1, 1, 0⟩, ⟨1, 2, 1⟩⟩, "a → a"⟩] :=
  (claim_c9_self_loop_two_findings "a" ⟨"f", ⟨1, 1, 0⟩, ⟨1, 2, 1⟩⟩ (by decide)).1

/-! ### Claim C10 -/

/-- Claim C10: normalizeCycle is not injective up to rotation.  The
one-element cycle ["a→b"] and the two-element cycle ["a","b"] are not
rotations of each other, yet their canonical keys coincide, and on an
input whose edges produce both cycles the detector silently suppresses
the second one: with edges (a→b, a→b), (a, b), (b, a) the DFS pass finds
the self-loop cycle ["a→b"], but its key equals the already-reported key
of the pairwise cycle [a, b], so no CyclePath-carrying finding is emitted,
whereas the self-loop edge alone does produce one. -/
theorem claim_c10_normalizeCycle_collision :
    normalizeCycle ["a→b"] = normalizeCycle ["a", "b"] ∧
    (∀ n, (["a", "b"].rotate n) ≠ ["a→b"]) ∧
    ((detectCircularDependencies
        [⟨"a→b", "a→b", ⟨"f", ⟨1, 1, 1⟩, ⟨1, 2, 2⟩⟩⟩,
         ⟨"a", "b", ⟨"f", ⟨2, 1, 3⟩, ⟨2, 2, 4⟩⟩⟩,
         ⟨"b", "a", ⟨"f", ⟨3, 1, 5⟩, ⟨3, 2, 6⟩⟩⟩]).filter
      (fun f => f.CyclePath != "")).length = 0 ∧
    ((detectCircularDependencies
        [⟨"a→b", "a→b", ⟨"f", ⟨1, 1, 1⟩, ⟨1, 2, 2⟩⟩⟩]).filter
      (fun f => f.CyclePath != "")).length = 1 := by
  refine ⟨by decide, ?_, by decide, by decide⟩
  intro n h
  have hlen := congrArg List.length h
  simp [List.length_rotate] at hlen


/-! ### Claim C2 -/

/-- Symbolic evaluation of the detector on the canonical simple 3-cycle
with `A` the lexicographically smallest module: three findings, one per
edge, all carrying the cycle path starting at `A`. -/
theorem c2_min (A B C : String) (r1 r2 r3 : Range)
    (hab : A < B) (hac : A < C) (hbc : B ≠ C) :
    detectCircularDependencies [⟨A, B, r1⟩, ⟨B, C, r2⟩, ⟨C, A, r3⟩] =
      [⟨A, B, rangeToUse [⟨A, B, r1⟩, ⟨B, C, r2⟩, ⟨C, A, r3⟩] A B, cyclePathString [A, B, C]⟩,
       ⟨B, C, rangeToUse [⟨A, B, r1⟩, ⟨B, C, r2⟩, ⟨C, A, r3⟩] B C, cyclePathString [A, B, C]⟩,
       ⟨C, A, rangeToUse [⟨A, B, r1⟩, ⟨B, C, r2⟩, ⟨C, A, r3⟩] C A, cyclePathString [A, B, C]⟩] := by
  have hABne : A ≠ B := ne_of_lt hab
  have hACne : A ≠ C := ne_of_lt hac
  have hBAne : B ≠ A := hABne.symm
  have hCAne : C ≠ A := hACne.symm
  have hBCne : B ≠ C := hbc
  have hCBne : C ≠ B := hBCne.symm
  have hadjA : sortStrings (depMapAdj [⟨A, B, r1⟩, ⟨B, C, r2⟩, ⟨C, A, r3⟩] A) = [B] := by
    simp [depMapAdj, hBAne, hCAne, sortStrings_singleton]
  have hadjB : sortStrings (depMapAdj [⟨A, B, r1⟩, ⟨B, C, r2⟩, ⟨C, A, r3⟩] B) = [C] := by
    simp [depMapAdj, hABne, hCBne, sortStrings_singleton]
  have hadjC : sortStrings (depMapAdj [⟨A, B, r1⟩, ⟨B, C, r2⟩, ⟨C, A, r3⟩] C) = [A] := by
    simp [depMapAdj, hACne, hBCne, sortStrings_singleton]
  have hnd : ([A, B, C] : List String).Nodup := by simp [hABne, hACne, hBCne]
  have hkeys : depKeys [⟨A, B, r1⟩, ⟨B, C, r2⟩, ⟨C, A, r3⟩] = [A, B, C] := by
    rw [depKeys, show ([⟨A, B, r1⟩, ⟨B, C, r2⟩, ⟨C, A, r3⟩] : List Dependency).map Dependency.From
      = [A, B, C] from rfl, List.dedup_eq_self.mpr hnd]
  have hsort : sortStrings [A, B, C] = if B < C then [A, B, C] else [A, C, B] := by
    rcases hbc.lt_or_lt with hbc0 | hcb
    · rw [if_pos hbc0]
      refine List.Sorted.insertionSort_eq ?_
      rw [List.sorted_cons]
      refine ⟨?_, ?_⟩
      · intro b hb
        rcases List.mem_cons.mp hb with rfl | hb'
        · exact strLe_of_lt hab
        · simp only [List.mem_singleton] at hb'
          exact hb' ▸ strLe_of_lt hac
      · rw [List.sorted_cons]
        refine ⟨?_, by simp⟩
        intro b hb
        simp only [List.mem_singleton] at hb
        exact hb ▸ strLe_of_lt hbc0
    · rw [if_neg (asymm hcb)]
      rw [sortStrings_eq_of_perm ((List.Perm.swap C B []).cons A)]
      refine List.Sorted.insertionSort_eq ?_
      rw [List.sorted_cons]
      refine ⟨?_, ?_⟩
      · intro b hb
        rcases List.mem_cons.mp hb with rfl | hb'
        · exact strLe_of_lt hac
        · simp only [List.mem_singleton] at hb'
          exact hb' ▸ strLe_of_lt hab
      · rw [List.sorted_cons]
        refine ⟨?_, by simp⟩
        intro b hb
        simp only [List.mem_singleton] at hb
        exact hb ▸ strLe_of_lt hcb
  have hfuel : fuelFor [⟨A, B, r1⟩, ⟨B, C, r2⟩, ⟨C, A, r3⟩] = 4 := by
    rw [fuelFor, show ([⟨A, B, r1⟩, ⟨B, C, r2⟩, ⟨C, A, r3⟩] : List Dependency).map Dependency.From
      ++ ([⟨A, B, r1⟩, ⟨B, C, r2⟩, ⟨C, A, r3⟩] : List Dependency).map Dependency.To
      = [A, B, C, B, C, A] from rfl]
    rw [List.dedup_cons_of_mem (by simp), List.dedup_cons_of_mem (by simp),
      List.dedup_cons_of_mem (by simp),
      List.dedup_cons_of_not_mem (by simp [hBCne, hBAne]),
      List.dedup_cons_of_not_mem (by simp [hCAne]),
      List.dedup_cons_of_not_mem (by simp)]
    rfl
  have hkey1 : normalizeCycle [A, B, C] = joinCycleKey [A, B, C] := by
    simp [normalizeCycle, rotateToMin, minIndexGo, strLtb_false_of_lt hab, strLtb_false_of_lt hac]
  have hkey2 : normalizeCycle [B, C, A] = joinCycleKey [A, B, C] := by
    rcases hbc.lt_or_lt with hbc0 | hcb
    · simp [normalizeCycle, rotateToMin, minIndexGo, strLtb_false_of_lt hbc0, strLtb_of_lt hab,
        List.rotate_cons_succ]
    · simp [normalizeCycle, rotateToMin, minIndexGo, strLtb_of_lt hcb, strLtb_of_lt hac,
        List.rotate_cons_succ]
  have hkey3 : normalizeCycle [C, A, B] = joinCycleKey [A, B, C] := by
    simp [normalizeCycle, rotateToMin, minIndexGo, strLtb_of_lt hac, strLtb_false_of_lt hab,
      List.rotate_cons_succ]
  have hfA : findCycle (fun k => sortStrings (depMapAdj [⟨A, B, r1⟩, ⟨B, C, r2⟩, ⟨C, A, r3⟩] k))
      4 A [] [] = (some [A, B, C], [C, B, A], [A, B, C]) := by
    simp [findCycle, findChildrenAux, hadjA, hadjB, hadjC, dropUntil,
      hABne, hACne, hBAne, hCAne, hBCne, hCBne]
  have hfB : findCycle (fun k => sortStrings (depMapAdj [⟨A, B, r1⟩, ⟨B, C, r2⟩, ⟨C, A, r3⟩] k))
      4 B [] [] = (some [B, C, A], [A, C, B], [B, C, A]) := by
    simp [findCycle, findChildrenAux, hadjA, hadjB, hadjC, dropUntil,
      hABne, hACne, hBAne, hCAne, hBCne, hCBne]
  have hfC : findCycle (fun k => sortStrings (depMapAdj [⟨A, B, r1⟩, ⟨B, C, r2⟩, ⟨C, A, r3⟩] k))
      4 C [] [] = (some [C, A, B], [B, A, C], [C, A, B]) := by
    simp [findCycle, findChildrenAux, hadjA, hadjB, hadjC, dropUntil,
      hABne, hACne, hBAne, hCAne, hBCne, hCBne]
  rcases hbc.lt_or_lt with hbc0 | hcb
  · have hpass1 : pass1 (fun k => sortStrings (depMapAdj [⟨A, B, r1⟩, ⟨B, C, r2⟩, ⟨C, A, r3⟩] k))
        (rangeToUse [⟨A, B, r1⟩, ⟨B, C, r2⟩, ⟨C, A, r3⟩]) [A, B, C] ([], []) = ([], []) := by
      simp [pass1, pass1Deps, pass1Rev, hadjA, hadjB, hadjC, hABne, hCAne, hBCne]
    rw [detectCircularDependencies, detectWithKeys, hkeys, hfuel, detectCore, hsort,
      if_pos hbc0, hpass1]
    simp only [pass2, pass2Step, hfA, hfB, hfC, hkey1, hkey2, hkey3]
    simp only [List.not_mem_nil, if_false, ite_false, List.mem_singleton, if_pos rfl,
      List.nil_append]
    simp [emitCycleFindings, List.range_succ, cyclePathString]
  · have hpass1b : pass1 (fun k => sortStrings (depMapAdj [⟨A, B, r1⟩, ⟨B, C, r2⟩, ⟨C, A, r3⟩] k))
        (rangeToUse [⟨A, B, r1⟩, ⟨B, C, r2⟩, ⟨C, A, r3⟩]) [A, C, B] ([], []) = ([], []) := by
      simp [pass1, pass1Deps, pass1Rev, hadjA, hadjB, hadjC, hABne, hCAne, hBCne]
    rw [detectCircularDependencies, detectWithKeys, hkeys, hfuel, detectCore, hsort,
      if_neg (asymm hcb), hpass1b]
    simp only [pass2, pass2Step, hfA, hfB, hfC, hkey1, hkey2, hkey3]
    simp only [List.not_mem_nil, if_false, ite_false, List.mem_singleton, if_pos rfl,
      List.nil_append]
    simp [emitCycleFindings, List.range_succ, cyclePathString]



/-- In a 3-cycle edge list with pairwise distinct modules, each
(From, To) equivalence class has at most one element. -/
theorem three_cycle_filter_len (X Y Z : String) (rx ry rz : Range)
    (hXY : X ≠ Y) (hYZ : Y ≠ Z) (hZX : Z ≠ X) (f t : String) :
    (([⟨X, Y, rx⟩, ⟨Y, Z, ry⟩, ⟨Z, X, rz⟩] : List Dependency).filter
      (fun d => d.From == f && d.To == t)).length ≤ 1 := by
  simp only [List.filter_cons, List.filter_nil]
  by_cases h1 : (X == f && Y == t) = true
  · have h1' := h1
    simp only [Bool.and_eq_true, beq_iff_eq] at h1'
    have h2 : ¬((Y == f && Z == t) = true) := by
      intro h
      simp only [Bool.and_eq_true, beq_iff_eq] at h
      exact hXY (h1'.1.trans h.1.symm)
    have h3 : ¬((Z == f && X == t) = true) := by
      intro h
      simp only [Bool.and_eq_true, beq_iff_eq] at h
      exact hZX (h.1.trans h1'.1.symm)
    rw [if_pos h1, if_neg h2, if_neg h3]
    simp
  · rw [if_neg h1]
    by_cases h2 : (Y == f && Z == t) = true
    · have h2' := h2
      simp only [Bool.and_eq_true, beq_iff_eq] at h2'
      have h3 : ¬((Z == f && X == t) = true) := by
        intro h
        simp only [Bool.and_eq_true, beq_iff_eq] at h
        exact hYZ (h2'.1.trans h.1.symm)
      rw [if_pos h2, if_neg h3]
      simp
    · rw [if_neg h2]
      by_cases h3 : (Z == f && X == t) = true
      · rw [if_pos h3]
        simp
      · rw [if_neg h3]
        simp

/-- Any permutation of the canonical 3-cycle list agrees with it on
every (From, To) filter class. -/
theorem three_cycle_classEq {X Y Z : String} {rx ry rz : Range} {deps : List Dependency}
    (hXY : X ≠ Y) (hYZ : Y ≠ Z) (hZX : Z ≠ X)
    (hperm : deps.Perm [⟨X, Y, rx⟩, ⟨Y, Z, ry⟩, ⟨Z, X, rz⟩]) :
    ∀ f t, deps.filter (fun d => d.From == f && d.To == t) =
      ([⟨X, Y, rx⟩, ⟨Y, Z, ry⟩, ⟨Z, X, rz⟩] : List Dependency).filter
        (fun d => d.From == f && d.To == t) :=
  fun f t => perm_eq_of_length_le_one (hperm.filter _)
    (three_cycle_filter_len X Y Z rx ry rz hXY hYZ hZX f t)



/-- Claim C2: for an edge list forming exactly the simple 3-cycle
A→B→C→A (in any order) with no other edges, detectCircularDependencies
returns exactly 3 findings whose (ModuleA, ModuleB) pairs are exactly
the three edges (A,B), (B,C), (C,A), and every finding carries the same
CyclePath: the cycle rendered after rotating it to start at its
lexicographically smallest member. -/
theorem claim_c2_three_cycle (A B C : String) (r1 r2 r3 : Range) (deps : List Dependency)
    (hAB : A ≠ B) (hBC : B ≠ C) (hCA : C ≠ A)
    (hperm : deps.Perm [⟨A, B, r1⟩, ⟨B, C, r2⟩, ⟨C, A, r3⟩]) :
    (detectCircularDependencies deps).length = 3 ∧
    ((detectCircularDependencies deps).map (fun f => (f.ModuleA, f.ModuleB))).Perm
      [(A, B), (B, C), (C, A)] ∧
    ∀ f ∈ detectCircularDependencies deps,
      f.CyclePath = cyclePathString (rotateToMin [A, B, C]) := by
  have hdc : detectCircularDependencies deps =
      detectCircularDependencies [⟨A, B, r1⟩, ⟨B, C, r2⟩, ⟨C, A, r3⟩] :=
    detect_ext hperm (three_cycle_classEq hAB hBC hCA hperm)
  have hrot1perm : ([⟨A, B, r1⟩, ⟨B, C, r2⟩, ⟨C, A, r3⟩] : List Dependency).Perm
      [⟨B, C, r2⟩, ⟨C, A, r3⟩, ⟨A, B, r1⟩] := by
    have h := (List.rotate_perm ([⟨A, B, r1⟩, ⟨B, C, r2⟩, ⟨C, A, r3⟩] : List Dependency) 1).symm
    rwa [show ([⟨A, B, r1⟩, ⟨B, C, r2⟩, ⟨C, A, r3⟩] : List Dependency).rotate 1 =
      [⟨B, C, r2⟩, ⟨C, A, r3⟩, ⟨A, B, r1⟩] from rfl] at h
  have hrot2perm : ([⟨A, B, r1⟩, ⟨B, C, r2⟩, ⟨C, A, r3⟩] : List Dependency).Perm
      [⟨C, A, r3⟩, ⟨A, B, r1⟩, ⟨B, C, r2⟩] := by
    have h := (List.rotate_perm ([⟨A, B, r1⟩, ⟨B, C, r2⟩, ⟨C, A, r3⟩] : List Dependency) 2).symm
    rwa [show ([⟨A, B, r1⟩, ⟨B, C, r2⟩, ⟨C, A, r3⟩] : List Dependency).rotate 2 =
      [⟨C, A, r3⟩, ⟨A, B, r1⟩, ⟨B, C, r2⟩] from rfl] at h
  have hdc2 : detectCircularDependencies [⟨A, B, r1⟩, ⟨B, C, r2⟩, ⟨C, A, r3⟩] =
      detectCircularDependencies [⟨B, C, r2⟩, ⟨C, A, r3⟩, ⟨A, B, r1⟩] :=
    detect_ext hrot1perm (three_cycle_classEq hBC hCA hAB hrot1perm)
  have hdc3 : detectCircularDependencies [⟨A, B, r1⟩, ⟨B, C, r2⟩, ⟨C, A, r3⟩] =
      detectCircularDependencies [⟨C, A, r3⟩, ⟨A, B, r1⟩, ⟨B, C, r2⟩] :=
    detect_ext hrot2perm (three_cycle_classEq hCA hAB hBC hrot2perm)
  have hpairrot1 : ([(B, C), (C, A), (A, B)] : List (String × String)).Perm
      [(A, B), (B, C), (C, A)] := by
    have h := List.rotate_perm ([(A, B), (B, C), (C, A)] : List (String × String)) 1
    rwa [show ([(A, B), (B, C), (C, A)] : List (String × String)).rotate 1 =
      [(B, C), (C, A), (A, B)] from rfl] at h
  have hpairrot2 : ([(C, A), (A, B), (B, C)] : List (String × String)).Perm
      [(A, B), (B, C), (C, A)] := by
    have h := List.rotate_perm ([(A, B), (B, C), (C, A)] : List (String × String)) 2
    rwa [show ([(A, B), (B, C), (C, A)] : List (String × String)).rotate 2 =
      [(C, A), (A, B), (B, C)] from rfl] at h
  rcases hAB.lt_or_lt with hab | hba
  · rcases hCA.lt_or_lt with hca | hac
    · have hcb : C < B := hca.trans hab
      have hrot : rotateToMin [A, B, C] = [C, A, B] := by
        simp [rotateToMin, minIndexGo, strLtb_false_of_lt hab, strLtb_of_lt hca,
          List.rotate_cons_succ]
      have hout := c2_min C A B r3 r1 r2 hca hcb hAB
      rw [hdc, hdc3, hout, hrot]
      refine ⟨rfl, ?_, ?_⟩
      · exact hpairrot2
      · intro f hf
        rcases List.mem_cons.mp hf with rfl | hf
        · rfl
        rcases List.mem_cons.mp hf with rfl | hf
        · rfl
        rcases List.mem_cons.mp hf with rfl | hf
        · rfl
        simp at hf
    · have hrot : rotateToMin [A, B, C] = [A, B, C] := by
        simp [rotateToMin, minIndexGo, strLtb_false_of_lt hab, strLtb_false_of_lt hac]
      have hout := c2_min A B C r1 r2 r3 hab hac hBC
      rw [hdc, hout, hrot]
      refine ⟨rfl, ?_, ?_⟩
      · exact List.Perm.refl _
      · intro f hf
        rcases List.mem_cons.mp hf with rfl | hf
        · rfl
        rcases List.mem_cons.mp hf with rfl | hf
        · rfl
        rcases List.mem_cons.mp hf with rfl | hf
        · rfl
        simp at hf
  · rcases hBC.lt_or_lt with hbc' | hcb
    · have hrot : rotateToMin [A, B, C] = [B, C, A] := by
        simp [rotateToMin, minIndexGo, strLtb_of_lt hba, strLtb_false_of_lt hbc',
          List.rotate_cons_succ]
      have hout := c2_min B C A r2 r3 r1 hbc' hba hCA
      rw [hdc, hdc2, hout, hrot]
      refine ⟨rfl, ?_, ?_⟩
      · exact hpairrot1
      · intro f hf
        rcases List.mem_cons.mp hf with rfl | hf
        · rfl
        rcases List.mem_cons.mp hf with rfl | hf
        · rfl
        rcases List.mem_cons.mp hf with rfl | hf
        · rfl
        simp at hf
    · have hca' : C < A := hcb.trans hba
      have hrot : rotateToMin [A, B, C] = [C, A, B] := by
        simp [rotateToMin, minIndexGo, strLtb_of_lt hba, strLtb_of_lt hcb,
          List.rotate_cons_succ]
      have hout := c2_min C A B r3 r1 r2 hca' hcb hAB
      rw [hdc, hdc3, hout, hrot]
      refine ⟨rfl, ?_, ?_⟩
      · exact hpairrot2
      · intro f hf
        rcases List.mem_cons.mp hf with rfl | hf
        · rfl
        rcases List.mem_cons.mp hf with rfl | hf
        · rfl
        rcases List.mem_cons.mp hf with rfl | hf
        · rfl
        simp at hf

/-- Witness for claim_c2_three_cycle at the concrete 3-cycle a→b→c→a. -/
theorem claim_c2_three_cycle_witness :
    (detectCircularDependencies
        [⟨"a", "b", Range.zero⟩, ⟨"b", "c", Range.zero⟩, ⟨"c", "a", Range.zero⟩]).length = 3 ∧
    ((detectCircularDependencies
        [⟨"a", "b", Range.zero⟩, ⟨"b", "c", Range.zero⟩, ⟨"c", "a", Range.zero⟩]).map
        (fun f => (f.ModuleA, f.ModuleB))).Perm [("a", "b"), ("b", "c"), ("c", "a")] ∧
    ∀ f ∈ detectCircularDependencies
        [⟨"a", "b", Range.zero⟩, ⟨"b", "c", Range.zero⟩, ⟨"c", "a", Range.zero⟩],
      f.CyclePath = cyclePathString (rotateToMin ["a", "b", "c"]) :=
  claim_c2_three_cycle "a" "b" "c" Range.zero Range.zero Range.zero _
    (by decide) (by decide) (by decide) (List.Perm.refl _)



/-! ### Claim C1 -/

theorem joinCycleKey_pair_data (x y : String) :
    (joinCycleKey [x, y]).data = x.data ++ '→' :: (y.data ++ ['→']) := by
  show ((("" ++ x) ++ "→") ++ y ++ "→").data = _
  simp [String.data_append]

theorem pairKey_inj {x y u v : String}
    (hx : ('→' : Char) ∉ x.data) (hu : ('→' : Char) ∉ u.data)
    (hy : ('→' : Char) ∉ y.data) (hv : ('→' : Char) ∉ v.data)
    (h : joinCycleKey [x, y] = joinCycleKey [u, v]) : x = u ∧ y = v := by
  have hd := congrArg String.data h
  rw [joinCycleKey_pair_data, joinCycleKey_pair_data] at hd
  obtain ⟨h1, h2⟩ := sep_split hx hu hd
  have h2' : y.data ++ '→' :: [] = v.data ++ '→' :: [] := by simpa using h2
  obtain ⟨h3, _⟩ := sep_split hy hv h2'
  exact ⟨String.ext h1, String.ext h3⟩

theorem joinCycleKey_pair (x y : String) :
    joinCycleKey [x, y] = x ++ "→" ++ (y ++ "→") := by
  apply String.ext
  rw [joinCycleKey_pair_data]
  simp [String.data_append]

theorem normalizeCycle_pair_key (x y : String) :
    normalizeCycle [x, y] =
      if strLtb y x then joinCycleKey [y, x] else joinCycleKey [x, y] := by
  rw [normalizeCycle_pair, joinCycleKey_pair, joinCycleKey_pair]

theorem normalizeCycle_pair_swap (x y : String) :
    normalizeCycle [y, x] = normalizeCycle [x, y] := by
  rcases lt_trichotomy x y with h | rfl | h
  · rw [normalizeCycle_pair_key, normalizeCycle_pair_key,
      strLtb_of_lt h, strLtb_false_of_lt h]
    simp
  · rfl
  · rw [normalizeCycle_pair_key, normalizeCycle_pair_key,
      strLtb_of_lt h, strLtb_false_of_lt h]
    simp

theorem pairKey_eq_iff {A B m d : String}
    (hA : ('→' : Char) ∉ A.data) (hB : ('→' : Char) ∉ B.data)
    (hm : ('→' : Char) ∉ m.data) (hd : ('→' : Char) ∉ d.data) :
    normalizeCycle [m, d] = normalizeCycle [A, B] ↔
      ((m = A ∧ d = B) ∨ (m = B ∧ d = A)) := by
  constructor
  · intro h
    rw [normalizeCycle_pair_key, normalizeCycle_pair_key] at h
    by_cases h1 : strLtb d m = true <;> by_cases h2 : strLtb B A = true <;>
      simp only [h1, h2, if_pos, if_neg, Bool.false_eq_true, if_false, if_true] at h
    · obtain ⟨he1, he2⟩ := pairKey_inj hd hB hm hA h
      exact Or.inl ⟨he2, he1⟩
    · obtain ⟨he1, he2⟩ := pairKey_inj hd hA hm hB h
      exact Or.inr ⟨he2, he1⟩
    · obtain ⟨he1, he2⟩ := pairKey_inj hm hB hd hA h
      exact Or.inr ⟨he1, he2⟩
    · obtain ⟨he1, he2⟩ := pairKey_inj hm hA hd hB h
      exact Or.inl ⟨he1, he2⟩
  · rintro (⟨h1, h2⟩ | ⟨h1, h2⟩)
    · rw [h1, h2]
    · rw [h1, h2]
      exact normalizeCycle_pair_swap A B

theorem touchesF_iff {A B : String} {f : CircularDependency} :
    touchesF A B f = true ↔
      (f.ModuleA = A ∨ f.ModuleA = B ∨ f.ModuleB = A ∨ f.ModuleB = B) := by
  simp [touchesF, or_assoc]

theorem pass1Rev_key_mono (rng : String → String → Range) (m d : String) :
    ∀ (revs : List String) (st : DetectState) (k : String),
      k ∈ st.1 → k ∈ (pass1Rev rng m d revs st).1 := by
  intro revs
  induction revs with
  | nil => intro st k hk; exact hk
  | cons r rest ih =>
    intro st k hk
    by_cases hr : r = m
    · simp only [pass1Rev, if_pos hr]
      by_cases hkey : normalizeCycle [m, d] ∈ st.1
      · rw [if_pos hkey]; exact ih st k hk
      · rw [if_neg hkey]; exact ih _ k (List.mem_cons_of_mem _ hk)
    · simp only [pass1Rev, if_neg hr]; exact ih st k hk

theorem pass1Deps_key_mono (adj : String → List String) (rng : String → String → Range)
    (m : String) :
    ∀ (ds : List String) (st : DetectState) (k : String),
      k ∈ st.1 → k ∈ (pass1Deps adj rng m ds st).1 := by
  intro ds
  induction ds with
  | nil => intro st k hk; exact hk
  | cons d rest ih =>
    intro st k hk
    exact ih _ k (pass1Rev_key_mono rng m d (adj d) st k hk)

theorem pass1_key_mono (adj : String → List String) (rng : String → String → Range) :
    ∀ (ms : List String) (st : DetectState) (k : String),
      k ∈ st.1 → k ∈ (pass1 adj rng ms st).1 := by
  intro ms
  induction ms with
  | nil => intro st k hk; exact hk
  | cons m rest ih =>
    intro st k hk
    exact ih _ k (pass1Deps_key_mono adj rng m (adj m) st k hk)

theorem pass1Rev_ensure (rng : String → String → Range) (m d : String) :
    ∀ (revs : List String) (st : DetectState), m ∈ revs →
      normalizeCycle [m, d] ∈ (pass1Rev rng m d revs st).1 := by
  intro revs
  induction revs with
  | nil => intro st hm; simp at hm
  | cons r rest ih =>
    intro st hm
    by_cases hr : r = m
    · simp only [pass1Rev, if_pos hr]
      by_cases hkey : normalizeCycle [m, d] ∈ st.1
      · rw [if_pos hkey]
        exact pass1Rev_key_mono rng m d rest st _ hkey
      · rw [if_neg hkey]
        exact pass1Rev_key_mono rng m d rest _ _ (List.mem_cons_self _ _)
    · simp only [pass1Rev, if_neg hr]
      rcases List.mem_cons.mp hm with he | hm'
      · exact absurd he.symm hr
      · exact ih st hm'

theorem pass1Deps_ensure (adj : String → List String) (rng : String → String → Range)
    (m : String) :
    ∀ (ds : List String) (st : DetectState) (d : String), d ∈ ds → m ∈ adj d →
      normalizeCycle [m, d] ∈ (pass1Deps adj rng m ds st).1 := by
  intro ds
  induction ds with
  | nil => intro st d hd _; simp at hd
  | cons d0 rest ih =>
    intro st d hd hm
    rcases List.mem_cons.mp hd with rfl | hd'
    · exact pass1Deps_key_mono adj rng m rest _ _
        (pass1Rev_ensure rng m d (adj d) st hm)
    · exact ih _ d hd' hm

theorem pass1_ensure (adj : String → List String) (rng : String → String → Range) :
    ∀ (ms : List String) (st : DetectState) (m d : String),
      m ∈ ms → d ∈ adj m → m ∈ adj d →
      normalizeCycle [m, d] ∈ (pass1 adj rng ms st).1 := by
  intro ms
  induction ms with
  | nil => intro st m d hm _ _; simp at hm
  | cons m0 rest ih =>
    intro st m d hm hd hrev
    rcases List.mem_cons.mp hm with rfl | hm'
    · exact pass1_key_mono adj rng rest _ _
        (pass1Deps_ensure adj rng m (adj m) st d hd hrev)
    · exact ih _ m d hm' hd hrev


theorem pass1Rev_c1 (rng : String → String → Range) {A B m d : String}
    (hmd : normalizeCycle [m, d] = normalizeCycle [A, B] ↔
      ((m = A ∧ d = B) ∨ (m = B ∧ d = A)))
    (htd : (m = A ∨ m = B ∨ d = A ∨ d = B) →
      ((m = A ∧ d = B) ∨ (m = B ∧ d = A))) :
    ∀ (revs : List String) (st : DetectState),
      c1Inv A B st → c1Inv A B (pass1Rev rng m d revs st) := by
  intro revs
  induction revs with
  | nil => intro st h; exact h
  | cons r rest ih =>
    intro st hinv
    by_cases hr : r = m
    · simp only [pass1Rev, if_pos hr]
      by_cases hkey : normalizeCycle [m, d] ∈ st.1
      · rw [if_pos hkey]; exact ih st hinv
      · rw [if_neg hkey]
        apply ih
        obtain ⟨h1, h2⟩ := hinv
        by_cases htch : touchesF A B ⟨m, d, rng m d, ""⟩ = true
        · have hpair : (m = A ∧ d = B) ∨ (m = B ∧ d = A) :=
            htd (touchesF_iff.mp htch)
          have hkeq : normalizeCycle [m, d] = normalizeCycle [A, B] := hmd.mpr hpair
          have hold : normalizeCycle [A, B] ∉ st.1 := by rw [← hkeq]; exact hkey
          constructor
          · show ((st.2 ++ ([⟨m, d, rng m d, ""⟩] : List CircularDependency)).filter (touchesF A B)).length = _
            rw [List.filter_append]
            have hz : (st.2.filter (touchesF A B)).length = 0 := by
              rw [h1, if_neg hold]
            simp only [List.filter_cons, htch, List.filter_nil, List.length_append, hz]
            have hmem : normalizeCycle [A, B] ∈ normalizeCycle [m, d] :: st.1 := by
              rw [hkeq]
              exact List.mem_cons_self _ _
            rw [if_pos hmem]
            simp
          · intro f hf htf
            rcases List.mem_append.mp hf with hf' | hf'
            · exact h2 f hf' htf
            · simp only [List.mem_singleton] at hf'
              subst hf'
              exact ⟨hpair, rfl⟩
        · have hne : normalizeCycle [m, d] ≠ normalizeCycle [A, B] := by
            intro hk
            apply htch
            rcases hmd.mp hk with ⟨ha, hb⟩ | ⟨ha, hb⟩ <;>
              simp [touchesF, ha, hb]
          constructor
          · show ((st.2 ++ ([⟨m, d, rng m d, ""⟩] : List CircularDependency)).filter (touchesF A B)).length = _
            rw [List.filter_append]
            have hmemiff : (normalizeCycle [A, B] ∈ normalizeCycle [m, d] :: st.1) ↔
                normalizeCycle [A, B] ∈ st.1 := by
              simp only [List.mem_cons]
              constructor
              · rintro (h | h)
                · exact absurd h.symm hne
                · exact h
              · exact Or.inr
            simp only [List.filter_cons, Bool.not_eq_true] at htch ⊢
            rw [htch]
            simp only [Bool.false_eq_true, if_false, List.filter_nil, List.append_nil, h1]
            by_cases hmem : normalizeCycle [A, B] ∈ st.1
            · rw [if_pos hmem, if_pos (hmemiff.mpr hmem)]
            · rw [if_neg hmem, if_neg (fun h => hmem (hmemiff.mp h))]
          · intro f hf htf
            rcases List.mem_append.mp hf with hf' | hf'
            · exact h2 f hf' htf
            · simp only [List.mem_singleton] at hf'
              subst hf'
              exact absurd htf htch
    · simp only [pass1Rev, if_neg hr]
      exact ih st hinv

theorem pass1Deps_c1 (adj : String → List String) (rng : String → String → Range)
    {A B m : String} :
    ∀ (ds : List String),
      (∀ d ∈ ds, (normalizeCycle [m, d] = normalizeCycle [A, B] ↔
          ((m = A ∧ d = B) ∨ (m = B ∧ d = A))) ∧
        ((m = A ∨ m = B ∨ d = A ∨ d = B) → ((m = A ∧ d = B) ∨ (m = B ∧ d = A)))) →
      ∀ (st : DetectState), c1Inv A B st → c1Inv A B (pass1Deps adj rng m ds st) := by
  intro ds
  induction ds with
  | nil => intro _ st h; exact h
  | cons d rest ih =>
    intro hok st hinv
    have hd := hok d (List.mem_cons_self _ _)
    exact ih (fun d' hd' => hok d' (List.mem_cons_of_mem _ hd')) _
      (pass1Rev_c1 rng hd.1 hd.2 (adj d) st hinv)

theorem pass1_c1 (adj : String → List String) (rng : String → String → Range)
    {A B : String} :
    ∀ (ms : List String),
      (∀ m ∈ ms, ∀ d ∈ adj m, (normalizeCycle [m, d] = normalizeCycle [A, B] ↔
          ((m = A ∧ d = B) ∨ (m = B ∧ d = A))) ∧
        ((m = A ∨ m = B ∨ d = A ∨ d = B) → ((m = A ∧ d = B) ∨ (m = B ∧ d = A)))) →
      ∀ (st : DetectState), c1Inv A B st → c1Inv A B (pass1 adj rng ms st) := by
  intro ms
  induction ms with
  | nil => intro _ st h; exact h
  | cons m rest ih =>
    intro hok st hinv
    exact ih (fun m' hm' => hok m' (List.mem_cons_of_mem _ hm')) _
      (pass1Deps_c1 adj rng (adj m) (hok m (List.mem_cons_self _ _)) st hinv)


theorem getD_mem_of_lt {l : List String} {i : Nat} (hi : i < l.length) :
    l.getD i "" ∈ l := by
  rw [List.getD_eq_getElem _ _ hi]
  exact List.getElem_mem hi

theorem cycle_pair_struct {adj : String → List String} {A B : String} (hAB : A ≠ B)
    (hadjA : ∀ x ∈ adj A, x = B) (hadjB : ∀ x ∈ adj B, x = A)
    {cyc : List String} (hc : IsCycleOf adj cyc) (hnd : cyc.Nodup)
    (hmemA : A ∈ cyc) : cyc = [A, B] ∨ cyc = [B, A] := by
  have hne : cyc ≠ [] := hc.1
  have hn : 0 < cyc.length := List.length_pos.mpr hne
  obtain ⟨i, hi, hgi⟩ := List.mem_iff_getElem.mp hmemA
  have hgdi : cyc.getD i "" = A := by rw [List.getD_eq_getElem _ _ hi]; exact hgi
  have h1 := hc.succ_mem hi
  rw [hgdi] at h1
  have hj : (i + 1) % cyc.length < cyc.length := Nat.mod_lt _ hn
  have hgj : cyc.getD ((i + 1) % cyc.length) "" = B := hadjA _ h1
  have h2 := hc.succ_mem hj
  rw [hgj] at h2
  have hk : ((i + 1) % cyc.length + 1) % cyc.length < cyc.length := Nat.mod_lt _ hn
  have hgk : cyc.getD (((i + 1) % cyc.length + 1) % cyc.length) "" = A := hadjB _ h2
  have hij : (i + 1) % cyc.length ≠ i := by
    intro he
    apply hAB
    rw [← hgdi, ← he, hgj]
  have hki : ((i + 1) % cyc.length + 1) % cyc.length = i := by
    have e1 : cyc.get ⟨((i + 1) % cyc.length + 1) % cyc.length, hk⟩ = cyc.get ⟨i, hi⟩ := by
      have ha := hgk
      have hb := hgdi
      rw [List.getD_eq_getElem _ _ hk] at ha
      rw [List.getD_eq_getElem _ _ hi] at hb
      simp only [List.get_eq_getElem]
      rw [ha, hb]
    have := (hnd.get_inj_iff).mp e1
    simpa using this
  have hmain : cyc.length = 2 ∧
      ((i = 0 ∧ (i + 1) % cyc.length = 1) ∨ (i = 1 ∧ (i + 1) % cyc.length = 0)) := by
    rcases Nat.lt_or_ge (i + 1) cyc.length with hlt | hge
    · have hjeq : (i + 1) % cyc.length = i + 1 := Nat.mod_eq_of_lt hlt
      rw [hjeq] at hki
      rcases Nat.lt_or_ge (i + 1 + 1) cyc.length with hlt2 | hge2
      · rw [Nat.mod_eq_of_lt hlt2] at hki
        omega
      · have heq2 : i + 1 + 1 = cyc.length := by omega
        rw [heq2, Nat.mod_self] at hki
        refine ⟨by omega, Or.inl ⟨by omega, ?_⟩⟩
        rw [hjeq]
        omega
    · have heq1 : i + 1 = cyc.length := by omega
      have hjeq : (i + 1) % cyc.length = 0 := by rw [heq1, Nat.mod_self]
      rw [hjeq] at hki hij
      have hipos : 0 < i := Nat.pos_of_ne_zero (fun h => hij h.symm)
      have hn2 : 2 ≤ cyc.length := by omega
      rw [Nat.mod_eq_of_lt (by omega : 0 + 1 < cyc.length)] at hki
      exact ⟨by omega, Or.inr ⟨by omega, hjeq⟩⟩
  obtain ⟨hlen, hcase⟩ := hmain
  rcases cyc with _ | ⟨a, _ | ⟨b, _ | ⟨c, t⟩⟩⟩
  · simp at hlen
  · simp at hlen
  · rcases hcase with ⟨hi0, hj1⟩ | ⟨hi1, hj0⟩
    · left
      rw [hi0] at hgdi
      rw [hj1] at hgj
      have ha : a = A := hgdi
      have hb : b = B := hgj
      rw [ha, hb]
    · right
      rw [hi1] at hgdi
      rw [hj0] at hgj
      have ha : b = A := hgdi
      have hb : a = B := hgj
      rw [ha, hb]
  · simp at hlen

theorem cycle_pair_cases {adj : String → List String} {A B : String} (hAB : A ≠ B)
    (hadjA : ∀ x ∈ adj A, x = B) (hadjB : ∀ x ∈ adj B, x = A)
    {cyc : List String} (hc : IsCycleOf adj cyc) (hnd : cyc.Nodup)
    (hmem : A ∈ cyc ∨ B ∈ cyc) : cyc = [A, B] ∨ cyc = [B, A] := by
  rcases hmem with hm | hm
  · exact cycle_pair_struct hAB hadjA hadjB hc hnd hm
  · exact (cycle_pair_struct (Ne.symm hAB) hadjB hadjA hc hnd hm).symm


theorem pass2Step_c1 {adj : String → List String} {rng : String → String → Range}
    {fuel : Nat} {A B : String} (hAB : A ≠ B)
    (hadjA : ∀ x ∈ adj A, x = B) (hadjB : ∀ x ∈ adj B, x = A)
    {st : DetectState} (hkey : normalizeCycle [A, B] ∈ st.1) (m : String) :
    normalizeCycle [A, B] ∈ (pass2Step adj rng fuel st m).1 ∧
      (pass2Step adj rng fuel st m).2.filter (touchesF A B) =
        st.2.filter (touchesF A B) := by
  unfold pass2Step
  rcases hfc : (findCycle adj fuel m [] []).1 with _ | cyc
  · exact ⟨hkey, rfl⟩
  · dsimp only
    by_cases hk : normalizeCycle cyc ∈ st.1
    · rw [if_pos hk]
      exact ⟨hkey, rfl⟩
    · rw [if_neg hk]
      refine ⟨List.mem_cons_of_mem _ hkey, ?_⟩
      show ((st.2 ++ emitCycleFindings rng cyc).filter (touchesF A B)) = _
      rw [List.filter_append]
      have hemit : (emitCycleFindings rng cyc).filter (touchesF A B) = [] := by
        rw [List.filter_eq_nil]
        intro f hf htch
        obtain ⟨_, _, hsome⟩ := findCycle_spec adj fuel m [] []
          List.nodup_nil (by simp) List.chain'_nil (fun h => absurd rfl h)
        obtain ⟨hcyc, hnd, _⟩ := hsome cyc hfc
        obtain ⟨i, hilt, hA, hB, _⟩ := emitCycleFindings_mem hf
        have hmem : A ∈ cyc ∨ B ∈ cyc := by
          rcases touchesF_iff.mp htch with h | h | h | h
          · exact Or.inl (by rw [← h, hA]; exact getD_mem_of_lt hilt)
          · exact Or.inr (by rw [← h, hA]; exact getD_mem_of_lt hilt)
          · have hlt2 : (i + 1) % cyc.length < cyc.length :=
              Nat.mod_lt _ (Nat.lt_of_le_of_lt (Nat.zero_le i) hilt)
            exact Or.inl (by rw [← h, hB]; exact getD_mem_of_lt hlt2)
          · have hlt2 : (i + 1) % cyc.length < cyc.length :=
              Nat.mod_lt _ (Nat.lt_of_le_of_lt (Nat.zero_le i) hilt)
            exact Or.inr (by rw [← h, hB]; exact getD_mem_of_lt hlt2)
        have hshape := cycle_pair_cases hAB hadjA hadjB hcyc hnd hmem
        apply hk
        rcases hshape with rfl | rfl
        · exact hkey
        · rw [normalizeCycle_pair_swap]
          exact hkey
      rw [hemit, List.append_nil]

theorem pass2_c1 {adj : String → List String} {rng : String → String → Range}
    {fuel : Nat} {A B : String} (hAB : A ≠ B)
    (hadjA : ∀ x ∈ adj A, x = B) (hadjB : ∀ x ∈ adj B, x = A) :
    ∀ (ms : List String) (st : DetectState), normalizeCycle [A, B] ∈ st.1 →
      (pass2 adj rng fuel ms st).2.filter (touchesF A B) =
        st.2.filter (touchesF A B) := by
  intro ms
  induction ms with
  | nil => intro st _; rfl
  | cons m rest ih =>
    intro st hkey
    obtain ⟨hkey', hfilt⟩ := pass2Step_c1 hAB hadjA hadjB hkey m
    show (pass2 adj rng fuel rest (pass2Step adj rng fuel st m)).2.filter (touchesF A B) = _
    rw [ih _ hkey', hfilt]


/-- Claim C1 (amended): for every edge list containing edges A→B and
B→A (A ≠ B), no other edges touching A or B, and every module name free
of the arrow character '→' (so canonical pair keys cannot collide),
detectCircularDependencies returns exactly one finding touching A or B;
that finding carries ModuleA/ModuleB equal to A and B in some order and
an empty CyclePath, and the result is unchanged when the positions of
the A→B and B→A edges in the input are swapped. -/
theorem claim_c1_mutual_pair (A B : String) (r1 r2 : Range)
    (l1 l2 l3 deps deps' : List Dependency)
    (hAB : A ≠ B) (harrA : ('→' : Char) ∉ A.data) (harrB : ('→' : Char) ∉ B.data)
    (harr : ∀ d ∈ l1 ++ l2 ++ l3, ('→' : Char) ∉ d.From.data ∧ ('→' : Char) ∉ d.To.data)
    (hnt : ∀ d ∈ l1 ++ l2 ++ l3, d.From ≠ A ∧ d.From ≠ B ∧ d.To ≠ A ∧ d.To ≠ B)
    (hdeps : deps = l1 ++ ⟨A, B, r1⟩ :: (l2 ++ ⟨B, A, r2⟩ :: l3))
    (hdeps' : deps' = l1 ++ ⟨B, A, r2⟩ :: (l2 ++ ⟨A, B, r1⟩ :: l3)) :
    ((detectCircularDependencies deps).filter (touchesF A B)).length = 1 ∧
    (∀ f ∈ detectCircularDependencies deps, touchesF A B f = true →
      ((f.ModuleA = A ∧ f.ModuleB = B) ∨ (f.ModuleA = B ∧ f.ModuleB = A)) ∧
      f.CyclePath = "") ∧
    detectCircularDependencies deps' = detectCircularDependencies deps := by
  have hmem : ∀ d : Dependency, d ∈ deps ↔
      (d ∈ l1 ∨ d ∈ l2 ∨ d ∈ l3 ∨ d = ⟨A, B, r1⟩ ∨ d = ⟨B, A, r2⟩) := by
    intro d
    rw [hdeps]
    simp only [List.mem_append, List.mem_cons]
    tauto
  have hlmem : ∀ d : Dependency, (d ∈ l1 ∨ d ∈ l2 ∨ d ∈ l3) → d ∈ l1 ++ l2 ++ l3 := by
    intro d hd
    simp only [List.mem_append]
    tauto
  have harrAll : ∀ d ∈ deps, ('→' : Char) ∉ d.From.data ∧ ('→' : Char) ∉ d.To.data := by
    intro d hd
    rcases (hmem d).mp hd with h | h | h | rfl | rfl
    · exact harr d (hlmem d (Or.inl h))
    · exact harr d (hlmem d (Or.inr (Or.inl h)))
    · exact harr d (hlmem d (Or.inr (Or.inr h)))
    · exact ⟨harrA, harrB⟩
    · exact ⟨harrB, harrA⟩
  have hedge : ∀ d ∈ deps, (d.From = A ∨ d.From = B ∨ d.To = A ∨ d.To = B) →
      ((d.From = A ∧ d.To = B) ∨ (d.From = B ∧ d.To = A)) := by
    intro d hd htch
    rcases (hmem d).mp hd with h | h | h | rfl | rfl
    · obtain ⟨h1, h2, h3, h4⟩ := hnt d (hlmem d (Or.inl h)); tauto
    · obtain ⟨h1, h2, h3, h4⟩ := hnt d (hlmem d (Or.inr (Or.inl h))); tauto
    · obtain ⟨h1, h2, h3, h4⟩ := hnt d (hlmem d (Or.inr (Or.inr h))); tauto
    · exact Or.inl ⟨rfl, rfl⟩
    · exact Or.inr ⟨rfl, rfl⟩
  have hadjA : ∀ x ∈ sortStrings (depMapAdj deps A), x = B := by
    intro x hx
    obtain ⟨d, hd, hfrom, hto⟩ := mem_sortAdj.mp hx
    rcases hedge d hd (Or.inl hfrom) with ⟨_, h⟩ | ⟨hBB, _⟩
    · exact hto.symm.trans h
    · exact absurd (hfrom.symm.trans hBB) hAB
  have hadjB : ∀ x ∈ sortStrings (depMapAdj deps B), x = A := by
    intro x hx
    obtain ⟨d, hd, hfrom, hto⟩ := mem_sortAdj.mp hx
    rcases hedge d hd (Or.inr (Or.inl hfrom)) with ⟨hAA, _⟩ | ⟨_, h⟩
    · exact absurd (hfrom.symm.trans hAA) (Ne.symm hAB)
    · exact hto.symm.trans h
  have hmemAB : (⟨A, B, r1⟩ : Dependency) ∈ deps := (hmem _).mpr (by tauto)
  have hmemBA : (⟨B, A, r2⟩ : Dependency) ∈ deps := (hmem _).mpr (by tauto)
  have hmodA : A ∈ sortStrings (depKeys deps) := by
    rw [mem_sortStrings]
    unfold depKeys
    rw [List.mem_dedup]
    exact List.mem_map.mpr ⟨⟨A, B, r1⟩, hmemAB, rfl⟩
  have hBadjA : B ∈ sortStrings (depMapAdj deps A) :=
    mem_sortAdj.mpr ⟨⟨A, B, r1⟩, hmemAB, rfl, rfl⟩
  have hAadjB : A ∈ sortStrings (depMapAdj deps B) :=
    mem_sortAdj.mpr ⟨⟨B, A, r2⟩, hmemBA, rfl, rfl⟩
  have hok : ∀ m ∈ sortStrings (depKeys deps), ∀ d ∈ sortStrings (depMapAdj deps m),
      (normalizeCycle [m, d] = normalizeCycle [A, B] ↔
        ((m = A ∧ d = B) ∨ (m = B ∧ d = A))) ∧
      ((m = A ∨ m = B ∨ d = A ∨ d = B) → ((m = A ∧ d = B) ∨ (m = B ∧ d = A))) := by
    intro m _ d hd
    obtain ⟨dep, hdep, hfrom, hto⟩ := mem_sortAdj.mp hd
    have harrm : ('→' : Char) ∉ m.data := by rw [← hfrom]; exact (harrAll dep hdep).1
    have harrd : ('→' : Char) ∉ d.data := by rw [← hto]; exact (harrAll dep hdep).2
    refine ⟨pairKey_eq_iff harrA harrB harrm harrd, ?_⟩
    intro htch
    have h2 := hedge dep hdep (by rw [hfrom, hto]; exact htch)
    rw [hfrom, hto] at h2
    exact h2
  have hswap : detectCircularDependencies deps' = detectCircularDependencies deps := by
    apply detect_ext
    · rw [hdeps, hdeps']
      refine List.Perm.append_left l1 ?_
      exact ((List.Perm.cons _ List.perm_middle).trans
        (List.Perm.swap ⟨A, B, r1⟩ ⟨B, A, r2⟩ (l2 ++ l3))).trans
        (List.Perm.cons _ List.perm_middle.symm)
    · intro f t
      rw [hdeps, hdeps']
      have hl : ∀ l : List Dependency, (∀ d ∈ l, d ∈ l1 ++ l2 ++ l3) →
          (f = A ∧ t = B) ∨ (f = B ∧ t = A) →
          l.filter (fun d => d.From == f && d.To == t) = [] := by
        intro l hsub hft
        rw [List.filter_eq_nil]
        intro d hd
        obtain ⟨h1, h2, h3, h4⟩ := hnt d (hsub d hd)
        rcases hft with ⟨rfl, rfl⟩ | ⟨rfl, rfl⟩ <;> simp [h1, h2, h3, h4]
      by_cases pe1 : ((⟨A, B, r1⟩ : Dependency).From == f &&
          (⟨A, B, r1⟩ : Dependency).To == t) = true
      · have hft : f = A ∧ t = B := by
          have hp := pe1
          simp only [Bool.and_eq_true, beq_iff_eq] at hp
          exact ⟨hp.1.symm, hp.2.symm⟩
        have pe2 : ((⟨B, A, r2⟩ : Dependency).From == f &&
            (⟨B, A, r2⟩ : Dependency).To == t) = false := by
          obtain ⟨rfl, rfl⟩ := hft
          simp [Ne.symm hAB]
        have hf1 := hl l1 (fun d hd => by simp only [List.mem_append]; tauto) (Or.inl hft)
        have hf2 := hl l2 (fun d hd => by simp only [List.mem_append]; tauto) (Or.inl hft)
        have hf3 := hl l3 (fun d hd => by simp only [List.mem_append]; tauto) (Or.inl hft)
        simp [List.filter_append, List.filter_cons, pe1, pe2, hf1, hf2, hf3]
      · by_cases pe2 : ((⟨B, A, r2⟩ : Dependency).From == f &&
            (⟨B, A, r2⟩ : Dependency).To == t) = true
        · have hft : f = B ∧ t = A := by
            have hp := pe2
            simp only [Bool.and_eq_true, beq_iff_eq] at hp
            exact ⟨hp.1.symm, hp.2.symm⟩
          have hf1 := hl l1 (fun d hd => by simp only [List.mem_append]; tauto) (Or.inr hft)
          have hf2 := hl l2 (fun d hd => by simp only [List.mem_append]; tauto) (Or.inr hft)
          have hf3 := hl l3 (fun d hd => by simp only [List.mem_append]; tauto) (Or.inr hft)
          simp [List.filter_append, List.filter_cons, pe1, pe2, hf1, hf2, hf3]
        · simp [List.filter_append, List.filter_cons, pe1, pe2]
  have hinv0 : c1Inv A B ([], []) := by
    constructor
    · simp
    · intro f hf
      simp at hf
  have hinv1 : c1Inv A B (pass1 (fun k => sortStrings (depMapAdj deps k)) (rangeToUse deps)
      (sortStrings (depKeys deps)) ([], [])) :=
    pass1_c1 (fun k => sortStrings (depMapAdj deps k)) (rangeToUse deps)
      (sortStrings (depKeys deps)) hok ([], []) hinv0
  have hkey1 : normalizeCycle [A, B] ∈ (pass1 (fun k => sortStrings (depMapAdj deps k))
      (rangeToUse deps) (sortStrings (depKeys deps)) ([], [])).1 :=
    pass1_ensure (fun k => sortStrings (depMapAdj deps k)) (rangeToUse deps)
      (sortStrings (depKeys deps)) ([], []) A B hmodA hBadjA hAadjB
  have hfilt2 := @pass2_c1 (fun k => sortStrings (depMapAdj deps k)) (rangeToUse deps)
    (fuelFor deps) A B hAB hadjA hadjB (sortStrings (depKeys deps))
    (pass1 (fun k => sortStrings (depMapAdj deps k)) (rangeToUse deps)
      (sortStrings (depKeys deps)) ([], [])) hkey1
  refine ⟨?_, ?_, hswap⟩
  · show ((detectCore (sortStrings (depKeys deps))
      (fun k => sortStrings (depMapAdj deps k)) (rangeToUse deps)
      (fuelFor deps)).filter (touchesF A B)).length = 1
    unfold detectCore
    rw [hfilt2, hinv1.1, if_pos hkey1]
  · intro f hf htf
    have hf2 : f ∈ (detectCore (sortStrings (depKeys deps))
        (fun k => sortStrings (depMapAdj deps k)) (rangeToUse deps)
        (fuelFor deps)).filter (touchesF A B) := List.mem_filter.mpr ⟨hf, htf⟩
    unfold detectCore at hf2
    rw [hfilt2] at hf2
    obtain ⟨hfmem, _⟩ := List.mem_filter.mp hf2
    exact hinv1.2 f hfmem htf


/-- Claim C1 counterexample: the claim quantifies over every edge list
with a mutual pair (A, B) and no other edges touching A or B, and demands
exactly one finding for the pair.  With A = "a→b", B = "c" alongside the
unrelated mutual pair ("a", "b→c"), the canonical keys of the two pairs
coincide ("a→b→c→"), the (a, b→c) pair is reported first, and the
detector returns zero findings touching A or B instead of one. -/
theorem claim_c1_counterexample :
    ("a→b" : String) ≠ "c" ∧
    (⟨"a→b", "c", ⟨"f", ⟨3, 1, 5⟩, ⟨3, 2, 6⟩⟩⟩ : Dependency) ∈ exampleDepsArrow ∧
    (⟨"c", "a→b", ⟨"f", ⟨4, 1, 7⟩, ⟨4, 2, 8⟩⟩⟩ : Dependency) ∈ exampleDepsArrow ∧
    (∀ d ∈ exampleDepsArrow,
      (d.From = "a→b" ∨ d.From = "c" ∨ d.To = "a→b" ∨ d.To = "c") →
        ((d.From = "a→b" ∧ d.To = "c") ∨ (d.From = "c" ∧ d.To = "a→b"))) ∧
    ((detectCircularDependencies exampleDepsArrow).filter (touchesF "a→b" "c")).length
      = 0 := by
  refine ⟨by decide, by decide, by decide, by decide, by decide⟩

/-- Witness for claim_c1_mutual_pair at the concrete input
with the mutual pair (a, b) and the unrelated edge (x, y). -/
theorem claim_c1_mutual_pair_witness :
    ((detectCircularDependencies
        [⟨"x", "y", Range.zero⟩, ⟨"a", "b", Range.zero⟩, ⟨"b", "a", Range.zero⟩]).filter
      (touchesF "a" "b")).length = 1 ∧
    (∀ f ∈ detectCircularDependencies
        [⟨"x", "y", Range.zero⟩, ⟨"a", "b", Range.zero⟩, ⟨"b", "a", Range.zero⟩],
      touchesF "a" "b" f = true →
        ((f.ModuleA = "a" ∧ f.ModuleB = "b") ∨ (f.ModuleA = "b" ∧ f.ModuleB = "a")) ∧
        f.CyclePath = "") ∧
    detectCircularDependencies
        [⟨"x", "y", Range.zero⟩, ⟨"b", "a", Range.zero⟩, ⟨"a", "b", Range.zero⟩] =
      detectCircularDependencies
        [⟨"x", "y", Range.zero⟩, ⟨"a", "b", Range.zero⟩, ⟨"b", "a", Range.zero⟩] :=
  claim_c1_mutual_pair "a" "b" Range.zero Range.zero
    [⟨"x", "y", Range.zero⟩] [] [] _ _
    (by decide) (by decide) (by decide) (by decide) (by decide) rfl rfl

end Tflint
